import Mathlib

/-!
# Verification of the `split-elm-bundle` planner, dependency graph and chunk assembly

This file gives a shallow embedding, in Lean 4, of the core algorithms of the
`split-elm-bundle` repository and proves (or refutes) the specified properties
about them.

The JavaScript sources use `Set<string>` with insertion order semantics.  We
model such a set as a `List String` without duplicates: `jsSetAdd` appends an
element only when it is absent (mirroring `Set.prototype.add`) and
`jsSetDelete` removes an element (mirroring `Set.prototype.delete`).
Membership order is irrelevant to every property proved here, but the list
model keeps iteration (`forEach`, `for … of`) faithful to the source.
-/

/-- `Set.prototype.add`: append the element when absent. -/
def jsSetAdd (s : List String) (x : String) : List String :=
  if x ∈ s then s else s ++ [x]

/-- `Set.prototype.delete`: remove the element (no-op when absent). -/
def jsSetDelete (s : List String) (x : String) : List String :=
  s.filter (fun y => y != x)

/-- `new Set(array)`: deduplicate keeping first occurrences. -/
def jsSetOfList (l : List String) : List String :=
  l.foldl jsSetAdd []

namespace SplitPlanner

/-!
## Split planner (`transformStateForSplitMode1`)

Embeds the planner of `splitWith1stMode` / `transformStateForSplitMode1`
(`src/types/public.d.ts` second document, the current revision, which extends
the earlier `src/convert-iife.mjs` revision by the `elementsToAlwaysShare`
promotion).  A `SplitMode1Program` is `{ name, needs: Set, shared: Set }`
(the borrowed `init` syntax node is not read by the planner and is omitted).
-/

structure SplitProgram where
  name : String
  needs : List String
  shared : List String
deriving Repr, DecidableEq

/-- The forced-share allowlist from `src/types/public.d.ts`. -/
def elementsToAlwaysShare : List String :=
  ["_VirtualDom_divertHrefToApp",
   "_Platform_initialize",
   "_Browser_document",
   "_Debugger_document",
   "_VirtualDom_render"]

/-- `if (a.needs.delete(s)) a.shared.add(s)`: one iteration of the
`for (const s of shared.values())` loop (`Set.delete` returns whether the
element was present). -/
def step1Fun (a : SplitProgram) (s : String) : SplitProgram :=
  if s ∈ a.needs then
    { a with needs := jsSetDelete a.needs s, shared := jsSetAdd a.shared s }
  else a

/-- `for (const s of shared.values()) { if (a.needs.delete(s)) a.shared.add(s) }` -/
def step1 (shared : List String) (a : SplitProgram) : SplitProgram :=
  shared.foldl step1Fun a

/-- One step of `a.needs.forEach(need => …)`: the loop body mutating
`(shared, a.shared, b)`.  The `elementsToAlwaysShare` check and the
`b.needs.has(need)` check are two separate `if`s in the source. -/
def pairStep (st : List String × List String × SplitProgram) (need : String) :
    List String × List String × SplitProgram :=
  let shared := st.1
  let aShared := st.2.1
  let b := st.2.2
  let shared := if need ∈ elementsToAlwaysShare then jsSetAdd shared need else shared
  let aShared := if need ∈ elementsToAlwaysShare then jsSetAdd aShared need else aShared
  if need ∈ b.needs then
    (jsSetAdd shared need, jsSetAdd aShared need,
     { b with needs := jsSetDelete b.needs need, shared := jsSetAdd b.shared need })
  else if need ∈ b.shared then
    (shared, jsSetAdd aShared need, b)
  else
    (shared, aShared, b)

/-- The body of `for (let b of programs.slice(index + 1))`: run the
`a.needs.forEach` loop (over a snapshot of `a.needs`, which the loop body never
mutates), then `a.shared.forEach(n => a.needs.delete(n))`. -/
def comparePair (shared : List String) (a b : SplitProgram) :
    List String × SplitProgram × SplitProgram :=
  let st := a.needs.foldl pairStep (shared, a.shared, b)
  let aShared := st.2.1
  (st.1,
   { a with needs := a.needs.filter (fun n => n ∉ aShared), shared := aShared },
   st.2.2)

/-- Compare `a` against every later program in order, threading the mutated
`a` and the global `shared` set, and collecting the mutated later programs. -/
def compareAll (shared : List String) (a : SplitProgram) :
    List SplitProgram → List String × SplitProgram × List SplitProgram
  | [] => (shared, a, [])
  | b :: bs =>
    let st := comparePair shared a b
    let rest := compareAll st.1 st.2.1 bs
    (rest.1, rest.2.1, st.2.2 :: rest.2.2)

/-- `transformStateForSplitMode1({ programs, shared })`: the outer
`for (let index = 0; …)` loop.  Returns the final `(shared, programs)`. -/
def transformStateForSplitMode1 (shared : List String) :
    List SplitProgram → List String × List SplitProgram
  | [] => (shared, [])
  | a :: rest =>
    let a1 := step1 shared a
    let st := compareAll shared a1 rest
    let rec' := transformStateForSplitMode1 st.1 st.2.2
    (rec'.1, st.2.1 :: rec'.2)
termination_by ps => ps.length
decreasing_by
  have h : ∀ (sh : List String) (a : SplitProgram) (bs : List SplitProgram),
      ((compareAll sh a bs).2.2).length = bs.length := by
    intro sh a bs
    induction bs generalizing sh a with
    | nil => rfl
    | cons b bs ih => simp [compareAll, ih]
  simp [h]

/-- `const shared = new Set(map.unnamed.flatMap(({ needs }) => needs))` from
`splitWith1stMode`: the initial global shared set. -/
def initialShared (unnamedNeeds : List (List String)) : List String :=
  jsSetOfList (unnamedNeeds.flatMap id)

end SplitPlanner

namespace DependencyGraph

/-!
## Reachability resolver (`getDependenciesOf`, `src/dependency-graph.mjs`)

A `ParsedDeclaration` is `{ name, startIndex, endIndex, needs }`.  The
`DependencyMap`'s `declarations` field is a JavaScript `Map<string,
ParsedDeclaration>`, modelled as an association list (`Map.get` = first
binding; the builder never overwrites a binding with a different value shape).

`getDependenciesOf` is a worklist loop.  Its JavaScript `do { … } while
(queue.length > 0)` cannot be translated by structural recursion (an
adversarial map whose stored `name` differs from its key would make it spin
forever), so the loop carries explicit fuel and `BfsOut.outOfFuel` marks
exhaustion; `bfsFuel` below is proved sufficient for every well-formed map.
-/

structure ParsedDeclaration where
  name : String
  startIndex : Nat
  endIndex : Nat
  needs : List String
deriving Repr, DecidableEq

/-- `declarations.get(id)`: first binding of the key in the association list. -/
def mapGet (decls : List (String × ParsedDeclaration)) (id : String) :
    Option ParsedDeclaration :=
  (decls.find? (fun p => p.1 == id)).map (·.2)

inductive BfsOut where
  /-- the loop finished and `result` is returned -/
  | ok : List String → BfsOut
  /-- `throw new Error(\x7bUnknown identifier '…'\x7d)` naming the identifier -/
  | unknownIdentifier : String → BfsOut
  /-- the modelling fuel ran out (never happens for well-formed maps) -/
  | outOfFuel : BfsOut
deriving Repr, DecidableEq

/-- The body of the `do … while (queue.length > 0)` loop of
`getDependenciesOf`: shift `id` off the queue; `if (!id) break` (a JavaScript
falsiness test, true for the empty string); skip identifiers already in
`result`; otherwise look the declaration up (throwing when absent), add its
`name` to `result` and push its `needs`. -/
def bfsLoop (decls : List (String × ParsedDeclaration)) :
    Nat → List String → List String → BfsOut
  | 0, _, _ => .outOfFuel
  | _ + 1, [], result => .ok result
  | fuel + 1, id :: rest, result =>
    if id = "" then .ok result
    else if id ∈ result then bfsLoop decls fuel rest result
    else
      match mapGet decls id with
      | none => .unknownIdentifier id
      | some direct =>
        bfsLoop decls fuel (rest ++ direct.needs) (jsSetAdd result direct.name)

/-- Fuel sufficient for every map whose stored names match their keys:
one queue entry at the start, plus, for every declaration, one dequeue of its
name and one enqueue per entry of its `needs`. -/
def bfsFuel (decls : List (String × ParsedDeclaration)) : Nat :=
  2 + (decls.map (fun p => 1 + p.2.needs.length)).sum

/-- `getDependenciesOf(identifier, { declarations })`: run the worklist loop
from `queue = [identifier]`, then `result.delete(identifier)`. -/
def getDependenciesOf (decls : List (String × ParsedDeclaration))
    (identifier : String) (fuel : Nat) : BfsOut :=
  match bfsLoop decls fuel [identifier] [] with
  | .ok result => .ok (jsSetDelete result identifier)
  | out => out

/-- One `needs` edge: `b` occurs in the `needs` of the declaration stored for
`a`. -/
def Edge (decls : List (String × ParsedDeclaration)) (a b : String) : Prop :=
  ∃ d, mapGet decls a = some d ∧ b ∈ d.needs

/-- Reachability along one or more `needs` edges. -/
abbrev Reaches (decls : List (String × ParsedDeclaration)) : String → String → Prop :=
  Relation.TransGen (Edge decls)

/-- Reachability along zero or more `needs` edges. -/
abbrev ReachesRefl (decls : List (String × ParsedDeclaration)) : String → String → Prop :=
  Relation.ReflTransGen (Edge decls)

/-- Well-formedness of a `DependencyMap`: the builder
(`getDeclarationsAndDependencies`) stores every declaration under its own
`name` (`declarations.set(name, { name, … })`), and JavaScript identifiers are
never the empty string. -/
def WellFormedMap (decls : List (String × ParsedDeclaration)) : Prop :=
  (∀ p ∈ decls, p.2.name = p.1) ∧ (∀ p ∈ decls, p.1 ≠ "")

/-- The termination measure of the worklist loop: the total cost of the
declarations not yet visited (one dequeue plus one enqueue per `needs`
entry). -/
def bfsMeasure (decls : List (String × ParsedDeclaration))
    (result : List String) : Nat :=
  (((decls.filter (fun p => p.1 ∉ result)).map
    (fun p => 1 + p.2.needs.length)).sum)

/-- The worklist loop's invariant: everything in `result` or the queue is
reachable (in zero or more steps) from the seed, every `needs` edge out of a
visited name leads back into `result` or into the queue, the seed is in one of
the two, and every visited name has a declaration. -/
structure BfsInv (decls : List (String × ParsedDeclaration)) (seed : String)
    (queue result : List String) : Prop where
  sound : ∀ n ∈ result, ReachesRefl decls seed n
  inQueue : ∀ n ∈ queue, ReachesRefl decls seed n
  closedEdge : ∀ r ∈ result, ∀ d, mapGet decls r = some d →
    ∀ b ∈ d.needs, b ∈ result ∨ b ∈ queue
  seedIn : seed ∈ result ∨ seed ∈ queue
  found : ∀ n ∈ result, (mapGet decls n).isSome

instance : DecidablePred WellFormedMap := fun _ =>
  inferInstanceAs (Decidable (_ ∧ _))

end DependencyGraph

namespace ScopeBuilder

/-!
## Scope-aware builder (`findNeeds` & friends, `src/dependency-graph.mjs`)

The builder walks tree-sitter syntax nodes.  We embed the well-shaped node
categories that `findNeeds`, `parseVariableDeclarations`,
`parseFunctionDeclaration` and `findNeedsInStatementBlock` handle (the current
revision, first document of `src/dependency-graph.mjs`): identifiers,
shorthand object properties, object/pair/call/arguments expressions, literals,
anonymous functions, function declarations, statement blocks, `return` and
expression statements, parenthesised expressions and `var` declarations.
Punctuation children (whose `findNeeds` cases return `[]`) are not represented.

A `DeclarationsInScope` is a linked chain
`{ parentScope, declarations: Array<string> }`; we model the chain as a list
of frames, innermost first.  Mutation of a frame (`scope.declarations.push`)
becomes functional threading: every embedded function returns the updated
scope next to its result, which models exactly the JavaScript aliasing of the
scope object shared between sibling statements.
-/

mutual

inductive JsNode where
  | identifier (t : String)
  | shorthandPropertyIdentifier (t : String)
  | propertyIdentifier (t : String)
  | numberLit
  | stringLit
  | object (members : JsNodeList)
  | pair (key : JsNode) (value : JsNode)
  | functionExpr (params : List String) (body : JsNode)
  | functionDeclaration (name : String) (params : List String) (body : JsNode)
  | statementBlock (stmts : JsNodeList)
  | returnStatement (e : JsNode)
  | expressionStatement (e : JsNode)
  | callExpression (callee : JsNode) (args : JsNode)
  | argumentsNode (args : JsNodeList)
  | parenthesized (e : JsNode)
  | variableDeclaration (ds : DeclaratorList)
deriving Repr, DecidableEq

inductive JsNodeList where
  | nil
  | cons (hd : JsNode) (tl : JsNodeList)
deriving Repr, DecidableEq

/-- The `variable_declarator` children of a `variable_declaration`: a bound
name with or without an initializer expression. -/
inductive DeclaratorList where
  | nil
  | cons (name : String) (init : JsNode) (tl : DeclaratorList)
  | consNoInit (name : String) (tl : DeclaratorList)
deriving Repr, DecidableEq

end

/-- A scope chain, innermost frame first.  `newScope()` of the source is `[[]]`
seen from its root; `newScope(parent, decls)` prepends a frame. -/
abbrev Scope := List (List String)

def newScope (parentScope : Scope) (declarations : List String) : Scope :=
  declarations :: parentScope

/-- `scope.declarations.push(name)`: append to the innermost frame. -/
def pushDecl : Scope → String → Scope
  | [], n => [[n]]
  | f :: r, n => (f ++ [n]) :: r

/-- The fixed ambient-global allowlist of `isDeclaredInScope`. -/
def ambientGlobals : List String :=
  ["Array", "console", "document", "DataView", "Error", "File",
   "FileList", "Object", "Math", "String", "window"]

/-- `isDeclaredInScope(identifier, scope)`: innermost frame outward, then the
ambient-global allowlist at the root. -/
def isDeclaredInScope (identifier : String) : Scope → Bool
  | [] => identifier ∈ ambientGlobals
  | f :: r => identifier ∈ f || isDeclaredInScope identifier r

/-- `wrapIdentifier`: empty if the identifier is known in scope. -/
def wrapIdentifier (identifier : String) (scope : Scope) : List String :=
  if isDeclaredInScope identifier scope then [] else [identifier]

mutual

/-- `findNeeds(node, scope)` returning the needs together with the (possibly
mutated) scope.  Dispatch mirrors the source: a bare `identifier` goes through
`wrapIdentifier`; a `shorthand_property_identifier` returns `[node.text]`
unconditionally; `function` and `function_declaration` recurse into the body
under `newScope(scope, formalParameters)` (the declaration first pushing its
own name onto the current scope); `statement_block` recurses under a fresh
frame; the remaining composite categories concatenate their children's needs
left to right. -/
def findNeeds : JsNode → Scope → List String × Scope
  | .identifier t, scope => (wrapIdentifier t scope, scope)
  | .shorthandPropertyIdentifier t, scope => ([t], scope)
  | .propertyIdentifier _, scope => ([], scope)
  | .numberLit, scope => ([], scope)
  | .stringLit, scope => ([], scope)
  | .object members, scope => findNeedsList members scope
  | .pair key value, scope =>
    let l := findNeeds key scope
    let r := findNeeds value l.2
    (l.1 ++ r.1, r.2)
  | .functionExpr params body, scope =>
    ((findNeeds body (newScope scope params)).1, scope)
  | .functionDeclaration name params body, scope =>
    let scope' := pushDecl scope name
    ((findNeeds body (newScope scope' params)).1, scope')
  | .statementBlock stmts, scope =>
    ((findNeedsList stmts (newScope scope [])).1, scope)
  | .returnStatement e, scope => findNeeds e scope
  | .expressionStatement e, scope => findNeeds e scope
  | .callExpression callee args, scope =>
    let l := findNeeds callee scope
    let r := findNeeds args l.2
    (l.1 ++ r.1, r.2)
  | .argumentsNode args, scope => findNeedsList args scope
  | .parenthesized e, scope => findNeeds e scope
  | .variableDeclaration ds, scope => parseVariableDeclarations ds scope

/-- Sibling nodes share one scope object: thread it left to right. -/
def findNeedsList : JsNodeList → Scope → List String × Scope
  | .nil, scope => ([], scope)
  | .cons hd tl, scope =>
    let l := findNeeds hd scope
    let r := findNeedsList tl l.2
    (l.1 ++ r.1, r.2)

/-- `parseVariableDeclarations`: per declarator, push the bound name onto the
scope, then collect the initializer's needs under that updated scope. -/
def parseVariableDeclarations : DeclaratorList → Scope → List String × Scope
  | .nil, scope => ([], scope)
  | .cons name init tl, scope =>
    let scope1 := pushDecl scope name
    let l := findNeeds init scope1
    let r := parseVariableDeclarations tl l.2
    (l.1 ++ r.1, r.2)
  | .consNoInit name tl, scope => parseVariableDeclarations tl (pushDecl scope name)

end

/-- A declaration record as produced by the builder (byte offsets, which the
scope analysis never reads, are omitted). -/
structure ParsedDecl where
  name : String
  needs : List String
deriving Repr, DecidableEq

/-- `parseFunctionDeclaration(node, scope)`: register the function's own name
in the enclosing scope (`scope.declarations.push(name)`), then compute the
body's needs under `newScope(scope, formalParameters)` — whose parent is the
scope already holding the name. -/
def parseFunctionDeclaration (name : String) (params : List String)
    (body : JsNode) (scope : Scope) : ParsedDecl × Scope :=
  let scope' := pushDecl scope name
  let needs := (findNeeds body (newScope scope' params)).1
  (⟨name, needs⟩, scope')

mutual

/-- Does `n` occur anywhere in the node as a `shorthand_property_identifier`
(the one identifier position `findNeeds` records without a scope check)? -/
def shorthandOccurs (n : String) : JsNode → Bool
  | .identifier _ => false
  | .shorthandPropertyIdentifier t => t == n
  | .propertyIdentifier _ => false
  | .numberLit => false
  | .stringLit => false
  | .object members => shorthandOccursList n members
  | .pair key value => shorthandOccurs n key || shorthandOccurs n value
  | .functionExpr _ body => shorthandOccurs n body
  | .functionDeclaration _ _ body => shorthandOccurs n body
  | .statementBlock stmts => shorthandOccursList n stmts
  | .returnStatement e => shorthandOccurs n e
  | .expressionStatement e => shorthandOccurs n e
  | .callExpression callee args => shorthandOccurs n callee || shorthandOccurs n args
  | .argumentsNode args => shorthandOccursList n args
  | .parenthesized e => shorthandOccurs n e
  | .variableDeclaration ds => shorthandOccursDecls n ds

def shorthandOccursList (n : String) : JsNodeList → Bool
  | .nil => false
  | .cons hd tl => shorthandOccurs n hd || shorthandOccursList n tl

def shorthandOccursDecls (n : String) : DeclaratorList → Bool
  | .nil => false
  | .cons _ init tl => shorthandOccurs n init || shorthandOccursDecls n tl
  | .consNoInit _ tl => shorthandOccursDecls n tl

end

end ScopeBuilder

namespace ChunkAssembly

/-!
## Chunk assembler (`dependenciesToChunks`, `src/types/public.d.ts` 2nd doc)

A `Chunk` is `{ startIndex, endIndex, needs, replacedContent? }`.  The
`name`/`names` fields that ride along on declaration records are never read
by the assembly and are omitted.  JavaScript's `Array.prototype.sort` is
stable (ECMAScript 2019), so the numeric comparator
`(a, b) => a.startIndex - b.startIndex` is modelled by a stable merge sort
under `a.startIndex ≤ b.startIndex`.
-/

structure Chunk where
  startIndex : Nat
  endIndex : Nat
  needs : List String
  replacedContent : Option String := none
deriving Repr, DecidableEq

/-- The fixed `replacements` map of `src/types/public.d.ts` (2nd document). -/
def replacements : List (String × String) :=
  [("_Browser_requestAnimationFrame",
    "var _Browser_requestAnimationFrame = window.requestAnimationFrame.bind(window)"),
   ("_Browser_cancelAnimationFrame",
    "var _Browser_cancelAnimationFrame = window.cancelAnimationFrame.bind(window)")]

/-- `replacements.get(key)` -/
def replacementsGet (key : String) : Option String :=
  (replacements.find? (fun p => p.1 == key)).map (·.2)

/-- `fetchChunksForDependencies(deps, map)`: project each dependency name to
its declaration (throwing when absent) enriched with any registered
replacement text. -/
def fetchChunksForDependencies (deps : List String)
    (decls : List (String × DependencyGraph.ParsedDeclaration)) :
    Except String (List Chunk) :=
  deps.mapM (fun key =>
    match DependencyGraph.mapGet decls key with
    | none => .error ("Could not find dependency '" ++ key ++ "' in map")
    | some value =>
      .ok { startIndex := value.startIndex, endIndex := value.endIndex,
            needs := value.needs, replacedContent := replacementsGet key })

/-- The comparator `(a, b) => a.startIndex - b.startIndex` as a total
boolean preorder. -/
def chunkLe (a b : Chunk) : Bool := a.startIndex ≤ b.startIndex

/-- `dependenciesToChunks(deps, declarations, chunks)`: fetch, append the
extra chunks, and stable-sort by original start offset. -/
def dependenciesToChunks (deps : List String)
    (decls : List (String × DependencyGraph.ParsedDeclaration))
    (chunks : List Chunk) : Except String (List Chunk) :=
  (fetchChunksForDependencies deps decls).map
    (fun fetched => (fetched ++ chunks).mergeSort chunkLe)

/-- `esm.substring(startIndex, endIndex)` (indices inside the string). -/
def jsSubstring (s : String) (startIdx endIdx : Nat) : String :=
  String.mk ((s.toList.drop startIdx).take (endIdx - startIdx))

/-- `chunkToString(esm)(chunk)`: the registered replacement when present and
truthy (a non-empty string), else the original source slice. -/
def chunkToString (esm : String) (chunk : Chunk) : String :=
  match chunk.replacedContent with
  | some r => if r == "" then jsSubstring esm chunk.startIndex chunk.endIndex else r
  | none => jsSubstring esm chunk.startIndex chunk.endIndex

/-- `depsToString` of `splitWith1stMode`:
`dependenciesToChunks(…).map(chunkToString(esm)).join('\n') + '\n'`. -/
def depsToString (esm : String) (deps : List String)
    (decls : List (String × DependencyGraph.ParsedDeclaration))
    (chunks : List Chunk) : Except String String :=
  (dependenciesToChunks deps decls chunks).map
    (fun cs => String.intercalate "\n" (cs.map (chunkToString esm)) ++ "\n")

end ChunkAssembly

namespace SplitReport

/-!
## The split operation's structured report (`prepareSplit`,
`splitPerProgramWithSingleSharedData`, `src/types/public.d.ts` 1st doc)

File reading, gzip sizing, conversion and file writing are external effects;
their outcomes enter the embedded functions as parameters: `convertOutcome`
is the result of `convert(iife)` (an exception message, or the converted text
with the extracted program nodes), `dceOutput` the file record written in the
single-program branch, and `sharedFile`/`programFiles` the records written by
`splitWith1stMode`.
-/

structure Sizes where
  raw : Nat
  gzip : Nat
deriving Repr, DecidableEq

structure FileWithSizes where
  file : String
  sizes : Sizes
deriving Repr, DecidableEq

/-- A program entry of the platform-export table (the borrowed `init` syntax
node is only read for output text, not by the report logic). -/
structure ProgramNode where
  name : String
deriving Repr, DecidableEq

/-- Modelled from the spec: `programNodeNames` is exported by
`convert-iife.mjs` but its body is not among the repository's files; the spec
says the report carries `programs: [name...]`, one name per program. -/
def programNodeNames (nodes : List ProgramNode) : List String :=
  nodes.map (·.name)

/-- `ReadAndConvert`: the three outcomes of `prepareSplit`. -/
inductive PrepareOut where
  | error (message : String) (input : FileWithSizes)
  | esmDce (input : FileWithSizes) (programs : List String) (output : FileWithSizes)
  | canSplit (input : FileWithSizes) (esm : String) (programNodes : List ProgramNode)
deriving Repr, DecidableEq

/-- `SplitResult` (`src/types/public.d.ts` 1st document): `Error | SingleEsm |
ManyProgramsWithSingleShared`. -/
inductive SplitResult where
  | error (message : String) (input : FileWithSizes)
  | esmDce (input : FileWithSizes) (programs : List String) (output : FileWithSizes)
  | manyProgramsOneShared (input : FileWithSizes) (programs : List String)
      (outputPrograms : List FileWithSizes) (outputShared : FileWithSizes)
deriving Repr, DecidableEq

/-- The `result` discriminator literal of each report variant. -/
def SplitResult.resultField : SplitResult → String
  | .error .. => "error"
  | .esmDce .. => "esm-dce"
  | .manyProgramsOneShared .. => "split-programs-one-shared"

/-- `prepareSplit(filePath, effects)` after the external reads: fewer than one
program (or a conversion exception) ends in the `catch` with an error report;
exactly one program is converted in place (`esm-dce`); two or more can split. -/
def prepareSplit (input : FileWithSizes)
    (convertOutcome : Except String (String × List ProgramNode))
    (dceOutput : FileWithSizes) : PrepareOut :=
  match convertOutcome with
  | .error msg => .error msg input
  | .ok (esm, programNodes) =>
    if programNodes.length < 1 then
      .error ("Could not extract a main program from '" ++ input.file ++ "'") input
    else if programNodes.length == 1 then
      .esmDce input (programNodeNames programNodes) dceOutput
    else
      .canSplit input esm programNodes

/-- `splitPerProgramWithSingleSharedData`: dispatch on `prepareSplit`; the
`can-split` case returns `splitWith1stMode`'s report, whose `result` literal
is `'split-programs-one-shared'`. -/
def splitPerProgramWithSingleSharedData (input : FileWithSizes)
    (convertOutcome : Except String (String × List ProgramNode))
    (dceOutput : FileWithSizes) (programFiles : List FileWithSizes)
    (sharedFile : FileWithSizes) : SplitResult :=
  match prepareSplit input convertOutcome dceOutput with
  | .error m i => .error m i
  | .esmDce i p o => .esmDce i p o
  | .canSplit i _esm nodes =>
    .manyProgramsOneShared i (programNodeNames nodes) programFiles sharedFile

end SplitReport

/-!
# Theorems

Helper lemmas live in the component namespaces; the statement settling each
specified claim is a top-level theorem named after the claim.
-/

theorem mem_jsSetAdd {s : List String} {x n : String} :
    n ∈ jsSetAdd s x ↔ n ∈ s ∨ n = x := by
  by_cases h : x ∈ s
  · simp only [jsSetAdd, if_pos h]
    exact ⟨Or.inl, fun hh => hh.elim id (fun e => e ▸ h)⟩
  · simp [jsSetAdd, if_neg h]

theorem mem_jsSetAdd_of_mem {s : List String} {n : String} (x : String)
    (h : n ∈ s) : n ∈ jsSetAdd s x :=
  mem_jsSetAdd.mpr (Or.inl h)

theorem mem_jsSetAdd_self (s : List String) (x : String) : x ∈ jsSetAdd s x :=
  mem_jsSetAdd.mpr (Or.inr rfl)

theorem mem_jsSetDelete {l : List String} {x n : String} :
    n ∈ jsSetDelete l x ↔ n ∈ l ∧ n ≠ x := by
  simp [jsSetDelete, List.mem_filter]

namespace DependencyGraph

theorem mapGet_eq_some {decls : List (String × ParsedDeclaration)} {id : String}
    {d : ParsedDeclaration} (h : mapGet decls id = some d) :
    ∃ p ∈ decls, p.1 = id ∧ p.2 = d := by
  unfold mapGet at h
  cases hf : decls.find? (fun p => p.1 == id) with
  | none => rw [hf] at h; simp at h
  | some p =>
    rw [hf] at h
    simp only [Option.map, Option.some.injEq] at h
    refine ⟨p, List.mem_of_find?_eq_some hf, ?_, h⟩
    have := List.find?_some hf
    simpa using this

theorem mapGet_name {decls : List (String × ParsedDeclaration)} {id : String}
    {d : ParsedDeclaration} (hwf : ∀ p ∈ decls, p.2.name = p.1)
    (h : mapGet decls id = some d) : d.name = id := by
  obtain ⟨p, hp, hk, hv⟩ := mapGet_eq_some h
  rw [← hv, hwf p hp, hk]

theorem sum_map_filter_split (l : List (String × ParsedDeclaration))
    (q : String × ParsedDeclaration → Bool)
    (f : String × ParsedDeclaration → Nat) :
    ((l.filter q).map f).sum + ((l.filter (fun a => !q a)).map f).sum
      = (l.map f).sum := by
  induction l with
  | nil => simp
  | cons a l ih =>
    cases hq : q a <;> simp [List.filter_cons, hq, ← ih] <;> omega

theorem bfsMeasure_decrease {decls : List (String × ParsedDeclaration)}
    {id : String} {direct : ParsedDeclaration} (result : List String)
    (hm : mapGet decls id = some direct) (hres : id ∉ result) :
    bfsMeasure decls (result ++ [id]) + (1 + direct.needs.length)
      ≤ bfsMeasure decls result := by
  obtain ⟨p, hp, hk, hv⟩ := mapGet_eq_some hm
  have hfilter : decls.filter (fun q => q.1 ∉ result ++ [id])
      = (decls.filter (fun q => q.1 ∉ result)).filter (fun q => !(q.1 == id)) := by
    rw [List.filter_filter]
    apply List.filter_congr
    intro a _
    by_cases h1 : a.1 ∈ result <;> by_cases h2 : a.1 = id <;>
      simp [h1, h2, List.mem_append]
  have hsplit := sum_map_filter_split (decls.filter (fun q => q.1 ∉ result))
    (fun q => !(q.1 == id)) (fun p => 1 + p.2.needs.length)
  have hpmem : p ∈ (decls.filter (fun q => q.1 ∉ result)).filter
      (fun q => !(!(q.1 == id))) := by
    simp only [List.mem_filter]
    exact ⟨⟨hp, by simp [hk, hres]⟩, by simp [hk]⟩
  have hone : 1 + direct.needs.length
      ≤ (((decls.filter (fun q => q.1 ∉ result)).filter
          (fun q => !(!(q.1 == id)))).map (fun p => 1 + p.2.needs.length)).sum := by
    have h1 : (1 + p.2.needs.length)
        ≤ (((decls.filter (fun q => q.1 ∉ result)).filter
            (fun q => !(!(q.1 == id)))).map (fun p => 1 + p.2.needs.length)).sum :=
      List.single_le_sum (by intro x _; omega) _
        (List.mem_map_of_mem _ hpmem)
    rw [hv] at h1
    exact h1
  unfold bfsMeasure
  rw [hfilter]
  omega

theorem bfsLoop_ne_outOfFuel {decls : List (String × ParsedDeclaration)}
    (hwf : ∀ p ∈ decls, p.2.name = p.1) :
    ∀ (fuel : Nat) (queue result : List String),
    queue.length + bfsMeasure decls result + 1 ≤ fuel →
    bfsLoop decls fuel queue result ≠ .outOfFuel := by
  intro fuel
  induction fuel with
  | zero => intro q r h; exact absurd h (by omega)
  | succ fuel ih =>
    intro q r h
    match q with
    | [] => simp [bfsLoop]
    | id :: rest =>
      simp only [bfsLoop]
      by_cases hid : id = ""
      · simp [hid]
      · rw [if_neg hid]
        by_cases hres : id ∈ r
        · rw [if_pos hres]
          apply ih
          simp only [List.length_cons] at h
          omega
        · rw [if_neg hres]
          cases hm : mapGet decls id with
          | none => simp
          | some direct =>
            simp only []
            have hadd : jsSetAdd r direct.name = r ++ [id] := by
              rw [mapGet_name hwf hm]
              simp [jsSetAdd, hres]
            rw [hadd]
            apply ih
            have hdec := bfsMeasure_decrease r hm hres
            simp only [List.length_cons, List.length_append] at h ⊢
            omega

theorem bfsMeasure_nil (decls : List (String × ParsedDeclaration)) :
    bfsMeasure decls [] = (decls.map (fun p => 1 + p.2.needs.length)).sum := by
  simp [bfsMeasure]

theorem bfsInv_init (decls : List (String × ParsedDeclaration)) (seed : String) :
    BfsInv decls seed [seed] [] where
  sound := by simp
  inQueue := by
    intro n hn
    rw [List.mem_singleton] at hn
    subst hn
    exact Relation.ReflTransGen.refl
  closedEdge := by simp
  seedIn := Or.inr (List.mem_singleton.mpr rfl)
  found := by simp

/-- Preservation of the invariant across the visit of a new identifier. -/
theorem bfsInv_step {decls : List (String × ParsedDeclaration)} {seed id : String}
    {rest result : List String} {direct : ParsedDeclaration}
    (inv : BfsInv decls seed (id :: rest) result)
    (hm : mapGet decls id = some direct) :
    BfsInv decls seed (rest ++ direct.needs) (result ++ [id]) where
  sound := by
    intro n hn
    rcases List.mem_append.mp hn with hn | hn
    · exact inv.sound n hn
    · rw [List.mem_singleton] at hn
      subst hn
      exact inv.inQueue n (List.mem_cons_self _ _)
  inQueue := by
    intro n hn
    rcases List.mem_append.mp hn with hn | hn
    · exact inv.inQueue n (List.mem_cons_of_mem _ hn)
    · exact (inv.inQueue id (List.mem_cons_self _ _)).tail ⟨direct, hm, hn⟩
  closedEdge := by
    intro x hx d hd b hb
    rcases List.mem_append.mp hx with hx | hx
    · rcases inv.closedEdge x hx d hd b hb with h | h
      · exact Or.inl (List.mem_append_left _ h)
      · rcases List.mem_cons.mp h with h | h
        · subst h
          exact Or.inl (List.mem_append_right _ (List.mem_singleton.mpr rfl))
        · exact Or.inr (List.mem_append_left _ h)
    · rw [List.mem_singleton] at hx
      subst hx
      rw [hm] at hd
      injection hd with hd
      subst hd
      exact Or.inr (List.mem_append_right _ hb)
  seedIn := by
    rcases inv.seedIn with h | h
    · exact Or.inl (List.mem_append_left _ h)
    · rcases List.mem_cons.mp h with h | h
      · subst h
        exact Or.inl (List.mem_append_right _ (List.mem_singleton.mpr rfl))
      · exact Or.inr (List.mem_append_left _ h)
  found := by
    intro n hn
    rcases List.mem_append.mp hn with hn | hn
    · exact inv.found n hn
    · rw [List.mem_singleton] at hn
      subst hn
      rw [hm]
      rfl

/-- Preservation of the invariant when skipping an already-visited identifier. -/
theorem bfsInv_skip {decls : List (String × ParsedDeclaration)} {seed id : String}
    {rest result : List String}
    (inv : BfsInv decls seed (id :: rest) result) (hres : id ∈ result) :
    BfsInv decls seed rest result where
  sound := inv.sound
  inQueue := fun n hn => inv.inQueue n (List.mem_cons_of_mem _ hn)
  closedEdge := by
    intro x hx d hd b hb
    rcases inv.closedEdge x hx d hd b hb with h | h
    · exact Or.inl h
    · rcases List.mem_cons.mp h with h | h
      · subst h; exact Or.inl hres
      · exact Or.inr h
  seedIn := by
    rcases inv.seedIn with h | h
    · exact Or.inl h
    · rcases List.mem_cons.mp h with h | h
      · subst h; exact Or.inl hres
      · exact Or.inr h
  found := inv.found

/-- When the loop exits with the queue empty, the accumulated `result` set is
exactly the set of identifiers reachable in zero or more steps from the seed. -/
theorem bfsInv_exit {decls : List (String × ParsedDeclaration)} {seed : String}
    {result : List String} (inv : BfsInv decls seed [] result) :
    ∀ n, n ∈ result ↔ ReachesRefl decls seed n := by
  intro n
  constructor
  · exact inv.sound n
  · intro hrt
    induction hrt with
    | refl =>
      rcases inv.seedIn with h | h
      · exact h
      · simp at h
    | tail _ hbc ih =>
      obtain ⟨d, hmd, hcd⟩ := hbc
      rcases inv.closedEdge _ ih d hmd _ hcd with h | h
      · exact h
      · simp at h

/-- Under the hypotheses of the claim (well-formed map, every reachable name
present), the worklist loop that returns `ok` returns exactly the
reflexive-reachable set. -/
theorem bfsLoop_ok_mem {decls : List (String × ParsedDeclaration)} {seed : String}
    (hwf : ∀ p ∈ decls, p.2.name = p.1) (hne : ∀ p ∈ decls, p.1 ≠ "")
    (hclosed : ∀ n, ReachesRefl decls seed n → (mapGet decls n).isSome) :
    ∀ (fuel : Nat) (queue result out : List String),
    BfsInv decls seed queue result →
    bfsLoop decls fuel queue result = .ok out →
    ∀ n, n ∈ out ↔ ReachesRefl decls seed n := by
  intro fuel
  induction fuel with
  | zero => intro q r out _ h; simp [bfsLoop] at h
  | succ fuel ih =>
    intro q r out inv h
    match q with
    | [] =>
      simp only [bfsLoop, BfsOut.ok.injEq] at h
      subst h
      exact bfsInv_exit inv
    | id :: rest =>
      simp only [bfsLoop] at h
      by_cases hid : id = ""
      · exfalso
        have hrt := inv.inQueue id (List.mem_cons_self _ _)
        rw [hid] at hrt
        obtain ⟨d, hd⟩ := Option.isSome_iff_exists.mp (hclosed _ hrt)
        obtain ⟨p, hp, hk, _⟩ := mapGet_eq_some hd
        exact hne p hp hk
      · rw [if_neg hid] at h
        by_cases hres : id ∈ r
        · rw [if_pos hres] at h
          exact ih rest r out (bfsInv_skip inv hres) h
        · rw [if_neg hres] at h
          cases hm : mapGet decls id with
          | none =>
            exfalso
            have hrt := inv.inQueue id (List.mem_cons_self _ _)
            have := hclosed _ hrt
            rw [hm] at this
            simp at this
          | some direct =>
            rw [hm] at h
            simp only [] at h
            have hadd : jsSetAdd r direct.name = r ++ [id] := by
              rw [mapGet_name hwf hm]
              simp [jsSetAdd, hres]
            rw [hadd] at h
            exact ih _ _ out (bfsInv_step inv hm) h

/-- Under the invariant and the closed-map hypothesis the loop never throws. -/
theorem bfsLoop_no_err {decls : List (String × ParsedDeclaration)} {seed : String}
    (hwf : ∀ p ∈ decls, p.2.name = p.1)
    (hclosed : ∀ n, ReachesRefl decls seed n → (mapGet decls n).isSome) :
    ∀ (fuel : Nat) (queue result : List String),
    BfsInv decls seed queue result →
    ∀ m, bfsLoop decls fuel queue result ≠ .unknownIdentifier m := by
  intro fuel
  induction fuel with
  | zero => intro q r _ m h; simp [bfsLoop] at h
  | succ fuel ih =>
    intro q r inv m h
    match q with
    | [] => simp [bfsLoop] at h
    | id :: rest =>
      simp only [bfsLoop] at h
      by_cases hid : id = ""
      · rw [if_pos hid] at h; exact BfsOut.noConfusion h
      · rw [if_neg hid] at h
        by_cases hres : id ∈ r
        · rw [if_pos hres] at h
          exact ih rest r (bfsInv_skip inv hres) m h
        · rw [if_neg hres] at h
          cases hm : mapGet decls id with
          | none =>
            have hrt := inv.inQueue id (List.mem_cons_self _ _)
            have := hclosed _ hrt
            rw [hm] at this
            simp at this
          | some direct =>
            rw [hm] at h
            simp only [] at h
            have hadd : jsSetAdd r direct.name = r ++ [id] := by
              rw [mapGet_name hwf hm]
              simp [jsSetAdd, hres]
            rw [hadd] at h
            exact ih _ _ (bfsInv_step inv hm) m h

/-- When some reachable name is absent from the map, the loop either runs out
of (modelling) fuel or throws an unknown-identifier error naming a reachable
absent identifier. -/
theorem bfsLoop_err_spec {decls : List (String × ParsedDeclaration)} {seed : String}
    (hwf : ∀ p ∈ decls, p.2.name = p.1)
    (hne : ∀ n, ReachesRefl decls seed n → n ≠ "")
    (hopen : ∃ n, ReachesRefl decls seed n ∧ mapGet decls n = none) :
    ∀ (fuel : Nat) (queue result : List String),
    BfsInv decls seed queue result →
    bfsLoop decls fuel queue result = .outOfFuel ∨
    ∃ m, bfsLoop decls fuel queue result = .unknownIdentifier m
      ∧ ReachesRefl decls seed m ∧ mapGet decls m = none := by
  intro fuel
  induction fuel with
  | zero => intro q r _; exact Or.inl rfl
  | succ fuel ih =>
    intro q r inv
    match q with
    | [] =>
      exfalso
      obtain ⟨n, hn, hnone⟩ := hopen
      have hmem := (bfsInv_exit inv n).mpr hn
      have := inv.found n hmem
      rw [hnone] at this
      simp at this
    | id :: rest =>
      simp only [bfsLoop]
      by_cases hid : id = ""
      · exfalso
        have hrt := inv.inQueue id (List.mem_cons_self _ _)
        exact hne id hrt hid
      · rw [if_neg hid]
        by_cases hres : id ∈ r
        · rw [if_pos hres]
          exact ih rest r (bfsInv_skip inv hres)
        · rw [if_neg hres]
          cases hm : mapGet decls id with
          | none =>
            exact Or.inr ⟨id, rfl, inv.inQueue id (List.mem_cons_self _ _), hm⟩
          | some direct =>
            simp only []
            have hadd : jsSetAdd r direct.name = r ++ [id] := by
              rw [mapGet_name hwf hm]
              simp [jsSetAdd, hres]
            rw [hadd]
            exact ih _ _ (bfsInv_step inv hm)

theorem bfsFuel_sufficient (decls : List (String × ParsedDeclaration)) :
    (1 : Nat) + bfsMeasure decls [] + 1 ≤ bfsFuel decls := by
  rw [bfsMeasure_nil, bfsFuel]
  omega

end DependencyGraph

/-- C4: for every well-formed dependency map (the builder keys every
declaration by its own `name`, and names are nonempty identifiers) and every
seed that is a key of the map:
if every name reachable from the seed along `needs` edges is a key of the
map, `getDependenciesOf` (run with sufficient fuel) returns exactly the set
of names reachable from the seed via one or more `needs` edges, with the seed
itself removed; and if some reachable name is absent from the map it throws
an unknown-identifier error naming a reachable absent name. -/
theorem C4_getDependenciesOf_spec
    (decls : List (String × DependencyGraph.ParsedDeclaration)) (seed : String)
    (hwf : DependencyGraph.WellFormedMap decls)
    (hseed : (DependencyGraph.mapGet decls seed).isSome) :
    ((∀ n, DependencyGraph.ReachesRefl decls seed n →
        (DependencyGraph.mapGet decls n).isSome) →
      ∃ out, DependencyGraph.getDependenciesOf decls seed
          (DependencyGraph.bfsFuel decls) = .ok out
        ∧ ∀ n, (n ∈ out ↔ (DependencyGraph.Reaches decls seed n ∧ n ≠ seed)))
    ∧ ((∀ n, DependencyGraph.ReachesRefl decls seed n → n ≠ "") →
       (∃ n, DependencyGraph.ReachesRefl decls seed n ∧
          DependencyGraph.mapGet decls n = none) →
        ∃ m, DependencyGraph.getDependenciesOf decls seed
            (DependencyGraph.bfsFuel decls) = .unknownIdentifier m
          ∧ DependencyGraph.ReachesRefl decls seed m
          ∧ DependencyGraph.mapGet decls m = none) := by
  have hfuel := DependencyGraph.bfsLoop_ne_outOfFuel hwf.1
    (DependencyGraph.bfsFuel decls) [seed] []
    (by simpa using DependencyGraph.bfsFuel_sufficient decls)
  constructor
  · intro hclosed
    cases hout : DependencyGraph.bfsLoop decls (DependencyGraph.bfsFuel decls)
        [seed] [] with
    | outOfFuel => exact absurd hout hfuel
    | unknownIdentifier m =>
      exact absurd hout
        (DependencyGraph.bfsLoop_no_err hwf.1 hclosed _ _ _
          (DependencyGraph.bfsInv_init decls seed) m)
    | ok result =>
      have hspec := DependencyGraph.bfsLoop_ok_mem hwf.1 hwf.2 hclosed
        (DependencyGraph.bfsFuel decls) [seed] [] result
        (DependencyGraph.bfsInv_init decls seed) hout
      refine ⟨jsSetDelete result seed, ?_, ?_⟩
      · unfold DependencyGraph.getDependenciesOf
        rw [hout]
      · intro n
        rw [mem_jsSetDelete, hspec n]
        constructor
        · rintro ⟨h, hne⟩
          rcases Relation.reflTransGen_iff_eq_or_transGen.mp h with h | h
          · exact absurd h hne
          · exact ⟨h, hne⟩
        · rintro ⟨h, hne⟩
          exact ⟨Relation.reflTransGen_iff_eq_or_transGen.mpr (Or.inr h), hne⟩
  · intro hne hopen
    rcases DependencyGraph.bfsLoop_err_spec hwf.1 hne hopen
        (DependencyGraph.bfsFuel decls) [seed] []
        (DependencyGraph.bfsInv_init decls seed) with h | ⟨m, hm, hrt, hnone⟩
    · exact absurd h hfuel
    · refine ⟨m, ?_, hrt, hnone⟩
      unfold DependencyGraph.getDependenciesOf
      rw [hm]

/-- Every name reachable (in zero or more steps) from `"a"` in the one-entry
cyclic map `a ↦ needs [a]` is `"a"` itself. -/
theorem cycleMap_reachable (n : String)
    (h : DependencyGraph.ReachesRefl
      [("a", ⟨"a", 0, 1, ["a"]⟩)] "a" n) : n = "a" := by
  induction h with
  | refl => rfl
  | tail _ hbc ih =>
    obtain ⟨d, hmd, hcd⟩ := hbc
    rw [ih] at hmd
    have hd : d = (⟨"a", 0, 1, ["a"]⟩ : DependencyGraph.ParsedDeclaration) := by
      simpa [DependencyGraph.mapGet, List.find?] using hmd.symm
    rw [hd] at hcd
    simpa using hcd

/-- Every name reachable from `"a"` in the map `a ↦ needs [missing]` is `"a"`
or `"missing"`. -/
theorem openMap_reachable (n : String)
    (h : DependencyGraph.ReachesRefl
      [("a", ⟨"a", 0, 1, ["missing"]⟩)] "a" n) : n = "a" ∨ n = "missing" := by
  induction h with
  | refl => exact Or.inl rfl
  | tail _ hbc ih =>
    obtain ⟨d, hmd, hcd⟩ := hbc
    rcases ih with ih | ih
    · rw [ih] at hmd
      have hd : d = (⟨"a", 0, 1, ["missing"]⟩ :
          DependencyGraph.ParsedDeclaration) := by
        simpa [DependencyGraph.mapGet, List.find?] using hmd.symm
      rw [hd] at hcd
      simp at hcd
      exact Or.inr hcd
    · rw [ih] at hmd
      simp [DependencyGraph.mapGet, List.find?] at hmd

/-- Witness for `C4_getDependenciesOf_spec`: a self-recursive one-declaration
map (closed half) and a map whose single declaration needs an absent name
(error half), with every hypothesis discharged at the concrete maps. -/
theorem C4_getDependenciesOf_spec_witness :
    (∃ out, DependencyGraph.getDependenciesOf
        [("a", ⟨"a", 0, 1, ["a"]⟩)] "a"
        (DependencyGraph.bfsFuel [("a", ⟨"a", 0, 1, ["a"]⟩)]) = .ok out
      ∧ ∀ n, (n ∈ out ↔ (DependencyGraph.Reaches
          [("a", ⟨"a", 0, 1, ["a"]⟩)] "a" n ∧ n ≠ "a")))
    ∧ (∃ m, DependencyGraph.getDependenciesOf
        [("a", ⟨"a", 0, 1, ["missing"]⟩)] "a"
        (DependencyGraph.bfsFuel [("a", ⟨"a", 0, 1, ["missing"]⟩)])
          = .unknownIdentifier m
      ∧ DependencyGraph.ReachesRefl [("a", ⟨"a", 0, 1, ["missing"]⟩)] "a" m
      ∧ DependencyGraph.mapGet [("a", ⟨"a", 0, 1, ["missing"]⟩)] m = none) := by
  constructor
  · exact (C4_getDependenciesOf_spec [("a", ⟨"a", 0, 1, ["a"]⟩)] "a"
      ⟨by decide, by decide⟩ (by decide)).1
      (fun n hn => by rw [cycleMap_reachable n hn]; decide)
  · exact (C4_getDependenciesOf_spec [("a", ⟨"a", 0, 1, ["missing"]⟩)] "a"
      ⟨by decide, by decide⟩ (by decide)).2
      (fun n hn => by rcases openMap_reachable n hn with h | h <;> rw [h] <;> decide)
      ⟨"missing",
       Relation.ReflTransGen.tail Relation.ReflTransGen.refl
         ⟨⟨"a", 0, 1, ["missing"]⟩, by decide, by decide⟩,
       by decide⟩

/-- C10: on a well-formed map (declarations keyed by their own `name`), the
worklist loop of `getDependenciesOf` terminates — concretely, the computable
fuel bound `bfsFuel` (one dequeue per declaration plus one enqueue per
`needs` entry) is never exhausted, even when the `needs` graph is cyclic:
each name is dequeued as a new element at most once. -/
theorem C10_getDependenciesOf_terminates
    (decls : List (String × DependencyGraph.ParsedDeclaration)) (seed : String)
    (hwf : DependencyGraph.WellFormedMap decls)
    (hseed : (DependencyGraph.mapGet decls seed).isSome)
    (hclosed : ∀ n, DependencyGraph.ReachesRefl decls seed n →
      (DependencyGraph.mapGet decls n).isSome) :
    DependencyGraph.getDependenciesOf decls seed (DependencyGraph.bfsFuel decls)
      ≠ .outOfFuel := by
  have hfuel := DependencyGraph.bfsLoop_ne_outOfFuel hwf.1
    (DependencyGraph.bfsFuel decls) [seed] []
    (by simpa using DependencyGraph.bfsFuel_sufficient decls)
  unfold DependencyGraph.getDependenciesOf
  cases hout : DependencyGraph.bfsLoop decls (DependencyGraph.bfsFuel decls)
      [seed] [] with
  | outOfFuel => exact absurd hout hfuel
  | unknownIdentifier m => simp
  | ok result => simp

/-- Witness for `C10_getDependenciesOf_terminates`: the self-recursive
(cyclic) one-declaration map. -/
theorem C10_getDependenciesOf_terminates_witness :
    DependencyGraph.getDependenciesOf [("a", ⟨"a", 0, 1, ["a"]⟩)] "a"
      (DependencyGraph.bfsFuel [("a", ⟨"a", 0, 1, ["a"]⟩)]) ≠ .outOfFuel :=
  C10_getDependenciesOf_terminates [("a", ⟨"a", 0, 1, ["a"]⟩)] "a"
    ⟨by decide, by decide⟩ (by decide)
    (fun n hn => by rw [cycleMap_reachable n hn]; decide)

namespace SplitPlanner

/-! ### Single-step facts about the `a.needs.forEach` body -/

theorem pairStep_shared_mono (st : List String × List String × SplitProgram)
    (x : String) {n : String} (h : n ∈ st.1) : n ∈ (pairStep st x).1 := by
  obtain ⟨sh, aSh, b⟩ := st
  simp only [pairStep]
  by_cases h1 : x ∈ elementsToAlwaysShare <;> by_cases h2 : x ∈ b.needs <;>
    by_cases h3 : x ∈ b.shared <;>
    simp_all [mem_jsSetAdd]

theorem pairStep_aShared_mono (st : List String × List String × SplitProgram)
    (x : String) {n : String} (h : n ∈ st.2.1) : n ∈ (pairStep st x).2.1 := by
  obtain ⟨sh, aSh, b⟩ := st
  simp only [pairStep]
  by_cases h1 : x ∈ elementsToAlwaysShare <;> by_cases h2 : x ∈ b.needs <;>
    by_cases h3 : x ∈ b.shared <;>
    simp_all [mem_jsSetAdd]

theorem pairStep_bShared_mono (st : List String × List String × SplitProgram)
    (x : String) {n : String} (h : n ∈ st.2.2.shared) :
    n ∈ (pairStep st x).2.2.shared := by
  obtain ⟨sh, aSh, b⟩ := st
  simp only [pairStep]
  by_cases h1 : x ∈ elementsToAlwaysShare <;> by_cases h2 : x ∈ b.needs <;>
    by_cases h3 : x ∈ b.shared <;>
    simp_all [mem_jsSetAdd]

theorem pairStep_bNeeds_sub (st : List String × List String × SplitProgram)
    (x : String) {n : String} (h : n ∈ (pairStep st x).2.2.needs) :
    n ∈ st.2.2.needs := by
  obtain ⟨sh, aSh, b⟩ := st
  simp only [pairStep] at h
  by_cases h1 : x ∈ elementsToAlwaysShare <;> by_cases h2 : x ∈ b.needs <;>
    by_cases h3 : x ∈ b.shared <;>
    simp_all [mem_jsSetDelete]

theorem pairStep_bName (st : List String × List String × SplitProgram)
    (x : String) : (pairStep st x).2.2.name = st.2.2.name := by
  obtain ⟨sh, aSh, b⟩ := st
  simp only [pairStep]
  by_cases h1 : x ∈ elementsToAlwaysShare <;> by_cases h2 : x ∈ b.needs <;>
    by_cases h3 : x ∈ b.shared <;>
    simp_all

theorem pairStep_bNeeds_keep (st : List String × List String × SplitProgram)
    (x : String) {n : String} (h : n ∈ st.2.2.needs) (hne : n ≠ x) :
    n ∈ (pairStep st x).2.2.needs := by
  obtain ⟨sh, aSh, b⟩ := st
  simp only [pairStep]
  by_cases h1 : x ∈ elementsToAlwaysShare <;> by_cases h2 : x ∈ b.needs <;>
    by_cases h3 : x ∈ b.shared <;>
    simp_all [mem_jsSetDelete]

theorem pairStep_bNeeds_del (st : List String × List String × SplitProgram)
    (x : String) {n : String} (h : n ∈ st.2.2.needs)
    (hdel : n ∉ (pairStep st x).2.2.needs) :
    n ∈ (pairStep st x).1 ∧ n ∈ (pairStep st x).2.2.shared := by
  obtain ⟨sh, aSh, b⟩ := st
  by_cases hx : n = x
  · subst hx
    simp only [pairStep]
    by_cases h1 : n ∈ elementsToAlwaysShare <;> by_cases h3 : n ∈ b.shared <;>
      simp_all [mem_jsSetAdd]
  · exact absurd (pairStep_bNeeds_keep (sh, aSh, b) x h hx) hdel

theorem pairStep_aShared_prov (st : List String × List String × SplitProgram)
    (x : String) {n : String} (h : n ∈ (pairStep st x).2.1) :
    n ∈ st.2.1 ∨ n = x := by
  obtain ⟨sh, aSh, b⟩ := st
  simp only [pairStep] at h
  by_cases h1 : x ∈ elementsToAlwaysShare <;> by_cases h2 : x ∈ b.needs <;>
    by_cases h3 : x ∈ b.shared <;>
    simp_all [mem_jsSetAdd] <;> tauto

theorem pairStep_shared_prov (st : List String × List String × SplitProgram)
    (x : String) {n : String} (h : n ∈ (pairStep st x).1) :
    n ∈ st.1 ∨ n = x := by
  obtain ⟨sh, aSh, b⟩ := st
  simp only [pairStep] at h
  by_cases h1 : x ∈ elementsToAlwaysShare <;> by_cases h2 : x ∈ b.needs <;>
    by_cases h3 : x ∈ b.shared <;>
    simp_all [mem_jsSetAdd] <;> tauto

theorem pairStep_bShared_prov (st : List String × List String × SplitProgram)
    (x : String) {n : String} (h : n ∈ (pairStep st x).2.2.shared) :
    n ∈ st.2.2.shared ∨ (n = x ∧ n ∈ st.2.2.needs) := by
  obtain ⟨sh, aSh, b⟩ := st
  by_cases h2 : x ∈ b.needs
  · have h' : (pairStep (sh, aSh, b) x).2.2.shared = jsSetAdd b.shared x := by
      simp only [pairStep]
      by_cases h1 : x ∈ elementsToAlwaysShare <;> simp [h1, h2]
    rw [h'] at h
    rcases mem_jsSetAdd.mp h with h | h
    · exact Or.inl h
    · exact Or.inr ⟨h, by rw [h]; exact h2⟩
  · have h' : (pairStep (sh, aSh, b) x).2.2 = b := by
      simp only [pairStep]
      by_cases h1 : x ∈ elementsToAlwaysShare <;>
        by_cases h3 : x ∈ b.shared <;> simp [h1, h2, h3]
    rw [h'] at h
    exact Or.inl h

theorem pairStep_promote (st : List String × List String × SplitProgram)
    (x : String) (h : x ∈ st.2.2.needs) : x ∈ (pairStep st x).1 := by
  obtain ⟨sh, aSh, b⟩ := st
  simp only [pairStep]
  by_cases h1 : x ∈ elementsToAlwaysShare <;>
    simp_all [mem_jsSetAdd]

theorem pairStep_allow (st : List String × List String × SplitProgram)
    (x : String) (h : x ∈ elementsToAlwaysShare) : x ∈ (pairStep st x).1 := by
  obtain ⟨sh, aSh, b⟩ := st
  simp only [pairStep]
  by_cases h2 : x ∈ b.needs <;> by_cases h3 : x ∈ b.shared <;>
    simp_all [mem_jsSetAdd]

theorem pairStep_aShared_new (st : List String × List String × SplitProgram)
    (x : String) {n : String} (hm : n ∈ (pairStep st x).2.1)
    (hnew : n ∉ st.2.1) :
    n ∈ (pairStep st x).1 ∨ n ∈ st.2.2.shared := by
  rcases pairStep_aShared_prov st x hm with h | h
  · exact absurd h hnew
  · subst h
    by_cases h2 : n ∈ st.2.2.needs
    · exact Or.inl (pairStep_promote st n h2)
    · by_cases h3 : n ∈ st.2.2.shared
      · exact Or.inr h3
      · by_cases h1 : n ∈ elementsToAlwaysShare
        · exact Or.inl (pairStep_allow st n h1)
        · exfalso
          obtain ⟨sh, aSh, b⟩ := st
          simp only [pairStep] at hm
          simp only at h2 h3 hnew
          simp [h1, h2, h3] at hm
          exact hnew hm

theorem pairStep_inv (st : List String × List String × SplitProgram)
    (x : String) (ha : ∀ m ∈ st.2.1, m ∈ st.1)
    (hb : ∀ m ∈ st.2.2.shared, m ∈ st.1) :
    (∀ m ∈ (pairStep st x).2.1, m ∈ (pairStep st x).1)
    ∧ (∀ m ∈ (pairStep st x).2.2.shared, m ∈ (pairStep st x).1) := by
  constructor
  · intro m hm
    by_cases hold : m ∈ st.2.1
    · exact pairStep_shared_mono st x (ha m hold)
    · rcases pairStep_aShared_new st x hm hold with h | h
      · exact h
      · exact pairStep_shared_mono st x (hb m h)
  · intro m hm
    rcases pairStep_bShared_prov st x hm with h | ⟨he, hn⟩
    · exact pairStep_shared_mono st x (hb m h)
    · rw [he] at hn ⊢
      exact pairStep_promote st x hn

theorem pairStep_shared_sub (st : List String × List String × SplitProgram)
    (x : String) {n : String} (h : n ∈ (pairStep st x).1) :
    n ∈ st.1 ∨ n ∈ (pairStep st x).2.1 := by
  obtain ⟨sh, aSh, b⟩ := st
  simp only [pairStep] at h ⊢
  by_cases h1 : x ∈ elementsToAlwaysShare <;> by_cases h2 : x ∈ b.needs <;>
    by_cases h3 : x ∈ b.shared <;>
    simp_all [mem_jsSetAdd] <;> tauto

theorem pairStep_bDisjoint (st : List String × List String × SplitProgram)
    (x : String) (hd : ∀ m ∈ st.2.2.needs, m ∉ st.2.2.shared) :
    ∀ m ∈ (pairStep st x).2.2.needs, m ∉ (pairStep st x).2.2.shared := by
  intro m hm hms
  have hmn := pairStep_bNeeds_sub st x hm
  rcases pairStep_bShared_prov st x hms with h | ⟨he, _⟩
  · exact hd m hmn h
  · subst he
    exact absurd hm (by
      obtain ⟨sh, aSh, b⟩ := st
      simp only [pairStep]
      by_cases h1 : m ∈ elementsToAlwaysShare <;>
        by_cases h2 : m ∈ b.needs <;> by_cases h3 : m ∈ b.shared <;>
        simp_all [mem_jsSetDelete])

/-! ### Facts about the whole `a.needs.forEach(need => …)` loop -/

theorem foldPair_shared_mono : ∀ (l : List String)
    (st : List String × List String × SplitProgram) {n : String}, n ∈ st.1 →
    n ∈ (l.foldl pairStep st).1
  | [], _, _, h => h
  | x :: l, st, n, h =>
    foldPair_shared_mono l (pairStep st x) (pairStep_shared_mono st x h)

theorem foldPair_aShared_mono : ∀ (l : List String)
    (st : List String × List String × SplitProgram) {n : String}, n ∈ st.2.1 →
    n ∈ (l.foldl pairStep st).2.1
  | [], _, _, h => h
  | x :: l, st, n, h =>
    foldPair_aShared_mono l (pairStep st x) (pairStep_aShared_mono st x h)

theorem foldPair_bShared_mono : ∀ (l : List String)
    (st : List String × List String × SplitProgram) {n : String},
    n ∈ st.2.2.shared → n ∈ (l.foldl pairStep st).2.2.shared
  | [], _, _, h => h
  | x :: l, st, n, h =>
    foldPair_bShared_mono l (pairStep st x) (pairStep_bShared_mono st x h)

theorem foldPair_bNeeds_sub : ∀ (l : List String)
    (st : List String × List String × SplitProgram) {n : String},
    n ∈ (l.foldl pairStep st).2.2.needs → n ∈ st.2.2.needs
  | [], _, _, h => h
  | x :: l, st, n, h =>
    pairStep_bNeeds_sub st x (foldPair_bNeeds_sub l (pairStep st x) h)

theorem foldPair_bName : ∀ (l : List String)
    (st : List String × List String × SplitProgram),
    (l.foldl pairStep st).2.2.name = st.2.2.name
  | [], _ => rfl
  | x :: l, st => (foldPair_bName l (pairStep st x)).trans (pairStep_bName st x)

/-- A `b.needs` entry either survives the loop or was promoted into both the
global shared set and `b.shared`. -/
theorem foldPair_bUnion : ∀ (l : List String)
    (st : List String × List String × SplitProgram) {n : String},
    n ∈ st.2.2.needs →
    n ∈ (l.foldl pairStep st).2.2.needs ∨
      (n ∈ (l.foldl pairStep st).1 ∧ n ∈ (l.foldl pairStep st).2.2.shared)
  | [], _, _, h => Or.inl h
  | x :: l, st, n, h => by
    by_cases hk : n ∈ (pairStep st x).2.2.needs
    · exact foldPair_bUnion l (pairStep st x) hk
    · obtain ⟨h1, h2⟩ := pairStep_bNeeds_del st x h hk
      exact Or.inr ⟨foldPair_shared_mono l _ h1, foldPair_bShared_mono l _ h2⟩

theorem foldPair_aShared_prov : ∀ (l : List String)
    (st : List String × List String × SplitProgram) {n : String},
    n ∈ (l.foldl pairStep st).2.1 → n ∈ st.2.1 ∨ n ∈ l
  | [], _, _, h => Or.inl h
  | x :: l, st, n, h => by
    rcases foldPair_aShared_prov l (pairStep st x) h with h | h
    · rcases pairStep_aShared_prov st x h with h | h
      · exact Or.inl h
      · exact Or.inr (h ▸ List.mem_cons_self _ _)
    · exact Or.inr (List.mem_cons_of_mem _ h)

theorem foldPair_shared_prov : ∀ (l : List String)
    (st : List String × List String × SplitProgram) {n : String},
    n ∈ (l.foldl pairStep st).1 → n ∈ st.1 ∨ n ∈ l
  | [], _, _, h => Or.inl h
  | x :: l, st, n, h => by
    rcases foldPair_shared_prov l (pairStep st x) h with h | h
    · rcases pairStep_shared_prov st x h with h | h
      · exact Or.inl h
      · exact Or.inr (h ▸ List.mem_cons_self _ _)
    · exact Or.inr (List.mem_cons_of_mem _ h)

theorem foldPair_bShared_prov : ∀ (l : List String)
    (st : List String × List String × SplitProgram) {n : String},
    n ∈ (l.foldl pairStep st).2.2.shared →
    n ∈ st.2.2.shared ∨ n ∈ st.2.2.needs
  | [], _, _, h => Or.inl h
  | x :: l, st, n, h => by
    rcases foldPair_bShared_prov l (pairStep st x) h with h | h
    · rcases pairStep_bShared_prov st x h with h | ⟨_, h⟩
      · exact Or.inl h
      · exact Or.inr h
    · exact Or.inr (pairStep_bNeeds_sub st x h)

theorem foldPair_inv : ∀ (l : List String)
    (st : List String × List String × SplitProgram),
    (∀ m ∈ st.2.1, m ∈ st.1) → (∀ m ∈ st.2.2.shared, m ∈ st.1) →
    (∀ m ∈ (l.foldl pairStep st).2.1, m ∈ (l.foldl pairStep st).1)
    ∧ (∀ m ∈ (l.foldl pairStep st).2.2.shared, m ∈ (l.foldl pairStep st).1)
  | [], _, ha, hb => ⟨ha, hb⟩
  | x :: l, st, ha, hb =>
    foldPair_inv l (pairStep st x) (pairStep_inv st x ha hb).1
      (pairStep_inv st x ha hb).2

/-- A loop entry that is in `b.needs` (or already shared) when its turn comes
is promoted into the global shared set. -/
theorem foldPair_promote : ∀ (l : List String)
    (st : List String × List String × SplitProgram) {n : String}, n ∈ l →
    (n ∈ st.2.2.needs ∨ n ∈ st.1) → n ∈ (l.foldl pairStep st).1
  | [], _, _, h, _ => absurd h (List.not_mem_nil _)
  | x :: l, st, n, h, hd => by
    by_cases he : n = x
    · subst he
      rcases hd with hd | hd
      · exact foldPair_shared_mono l _ (pairStep_promote st n hd)
      · exact foldPair_shared_mono l _ (pairStep_shared_mono st n hd)
    · rcases List.mem_cons.mp h with h | h
      · exact absurd h he
      · rcases hd with hd | hd
        · exact foldPair_promote l (pairStep st x) h
            (Or.inl (pairStep_bNeeds_keep st x hd he))
        · exact foldPair_promote l (pairStep st x) h
            (Or.inr (pairStep_shared_mono st x hd))

/-- A loop entry on the forced-share allowlist is promoted into the global
shared set when its turn comes, unconditionally. -/
theorem foldPair_allow : ∀ (l : List String)
    (st : List String × List String × SplitProgram) {n : String}, n ∈ l →
    n ∈ elementsToAlwaysShare → n ∈ (l.foldl pairStep st).1
  | [], _, _, h, _ => absurd h (List.not_mem_nil _)
  | x :: l, st, n, h, ha => by
    by_cases he : n = x
    · subst he
      exact foldPair_shared_mono l _ (pairStep_allow st n ha)
    · rcases List.mem_cons.mp h with h | h
      · exact absurd h he
      · exact foldPair_allow l (pairStep st x) h ha

/-- A loop entry that does not end up in `a.shared` was, at its turn, absent
from `b.needs` — and stays out. -/
theorem foldPair_aNeeds_vs_bNeeds : ∀ (l : List String)
    (st : List String × List String × SplitProgram) {n : String}, n ∈ l →
    n ∉ (l.foldl pairStep st).2.1 → n ∉ (l.foldl pairStep st).2.2.needs
  | [], _, _, h, _ => absurd h (List.not_mem_nil _)
  | x :: l, st, n, h, hsh => by
    by_cases he : n = x
    · subst he
      by_cases hb : n ∈ st.2.2.needs
      · intro _
        exact hsh (foldPair_aShared_mono l _ (by
          obtain ⟨sh, aSh, b⟩ := st
          simp only at hb
          simp only [pairStep]
          by_cases h1 : n ∈ elementsToAlwaysShare <;>
            simp [h1, hb, mem_jsSetAdd]))
      · intro hmem
        exact hb (pairStep_bNeeds_sub st n (foldPair_bNeeds_sub l _ hmem))
    · rcases List.mem_cons.mp h with h | h
      · exact absurd h he
      · exact foldPair_aNeeds_vs_bNeeds l (pairStep st x) h hsh

/-- Every name added to the global shared set during the loop is also added
to `a.shared`. -/
theorem foldPair_shared_sub : ∀ (l : List String)
    (st : List String × List String × SplitProgram) {n : String},
    n ∈ (l.foldl pairStep st).1 → n ∈ st.1 ∨ n ∈ (l.foldl pairStep st).2.1
  | [], _, _, h => Or.inl h
  | x :: l, st, n, h => by
    rcases foldPair_shared_sub l (pairStep st x) h with h | h
    · rcases pairStep_shared_sub st x h with h | h
      · exact Or.inl h
      · exact Or.inr (foldPair_aShared_mono l _ h)
    · exact Or.inr h

theorem foldPair_bDisjoint : ∀ (l : List String)
    (st : List String × List String × SplitProgram),
    (∀ m ∈ st.2.2.needs, m ∉ st.2.2.shared) →
    ∀ m ∈ (l.foldl pairStep st).2.2.needs, m ∉ (l.foldl pairStep st).2.2.shared
  | [], _, hd => hd
  | x :: l, st, hd =>
    foldPair_bDisjoint l (pairStep st x) (pairStep_bDisjoint st x hd)

/-! ### Facts about one `for (let b of programs.slice(index + 1))` body -/

theorem comparePair_proj (shared : List String) (a b : SplitProgram) :
    (comparePair shared a b).1
        = (a.needs.foldl pairStep (shared, a.shared, b)).1
    ∧ (comparePair shared a b).2.1.needs
        = a.needs.filter
            (fun n => n ∉ (a.needs.foldl pairStep (shared, a.shared, b)).2.1)
    ∧ (comparePair shared a b).2.1.shared
        = (a.needs.foldl pairStep (shared, a.shared, b)).2.1
    ∧ (comparePair shared a b).2.1.name = a.name
    ∧ (comparePair shared a b).2.2
        = (a.needs.foldl pairStep (shared, a.shared, b)).2.2 := by
  refine ⟨rfl, rfl, rfl, rfl, rfl⟩

theorem comparePair_shared_mono (shared : List String) (a b : SplitProgram)
    {n : String} (h : n ∈ shared) : n ∈ (comparePair shared a b).1 :=
  foldPair_shared_mono a.needs (shared, a.shared, b) h

theorem comparePair_aNeeds_sub (shared : List String) (a b : SplitProgram)
    {n : String} (h : n ∈ (comparePair shared a b).2.1.needs) : n ∈ a.needs :=
  (List.mem_filter.mp h).1

theorem comparePair_bNeeds_sub (shared : List String) (a b : SplitProgram)
    {n : String} (h : n ∈ (comparePair shared a b).2.2.needs) : n ∈ b.needs :=
  foldPair_bNeeds_sub a.needs (shared, a.shared, b) h

theorem comparePair_bName (shared : List String) (a b : SplitProgram) :
    (comparePair shared a b).2.2.name = b.name :=
  foldPair_bName a.needs (shared, a.shared, b)

theorem comparePair_aCase (shared : List String) (a b : SplitProgram)
    (hInva : ∀ m ∈ a.shared, m ∈ shared) (hInvb : ∀ m ∈ b.shared, m ∈ shared)
    {n : String} (h : n ∈ a.needs) :
    n ∈ (comparePair shared a b).2.1.needs ∨ n ∈ (comparePair shared a b).1 := by
  by_cases hm : n ∈ (a.needs.foldl pairStep (shared, a.shared, b)).2.1
  · exact Or.inr ((foldPair_inv a.needs (shared, a.shared, b) hInva hInvb).1 n hm)
  · exact Or.inl (List.mem_filter.mpr ⟨h, by simpa using hm⟩)

theorem comparePair_bCase (shared : List String) (a b : SplitProgram)
    {n : String} (h : n ∈ b.needs) :
    n ∈ (comparePair shared a b).2.2.needs ∨ n ∈ (comparePair shared a b).1 := by
  rcases foldPair_bUnion a.needs (shared, a.shared, b) h with h | ⟨h, _⟩
  · exact Or.inl h
  · exact Or.inr h

theorem comparePair_promote (shared : List String) (a b : SplitProgram)
    {n : String} (ha : n ∈ a.needs) (hb : n ∈ b.needs) :
    n ∈ (comparePair shared a b).1 :=
  foldPair_promote a.needs (shared, a.shared, b) ha (Or.inl hb)

theorem comparePair_allow (shared : List String) (a b : SplitProgram)
    {n : String} (ha : n ∈ a.needs) (hl : n ∈ elementsToAlwaysShare) :
    n ∈ (comparePair shared a b).1 :=
  foldPair_allow a.needs (shared, a.shared, b) ha hl

theorem comparePair_inv (shared : List String) (a b : SplitProgram)
    (hInva : ∀ m ∈ a.shared, m ∈ shared) (hInvb : ∀ m ∈ b.shared, m ∈ shared) :
    (∀ m ∈ (comparePair shared a b).2.1.shared, m ∈ (comparePair shared a b).1)
    ∧ (∀ m ∈ (comparePair shared a b).2.2.shared,
        m ∈ (comparePair shared a b).1) :=
  foldPair_inv a.needs (shared, a.shared, b) hInva hInvb

theorem comparePair_aNeeds_vs_bNeeds (shared : List String) (a b : SplitProgram)
    {n : String} (h : n ∈ (comparePair shared a b).2.1.needs) :
    n ∉ (comparePair shared a b).2.2.needs := by
  have hmem := List.mem_filter.mp h
  exact foldPair_aNeeds_vs_bNeeds a.needs (shared, a.shared, b) hmem.1
    (by simpa using hmem.2)

theorem comparePair_aNeeds_not_shared (shared : List String) (a b : SplitProgram)
    (hsh : ∀ m ∈ a.needs, m ∉ shared) :
    ∀ m ∈ (comparePair shared a b).2.1.needs, m ∉ (comparePair shared a b).1 := by
  intro m hm hs
  have hmem := List.mem_filter.mp hm
  rcases foldPair_shared_sub a.needs (shared, a.shared, b) hs with h | h
  · exact hsh m hmem.1 h
  · exact (by simpa using hmem.2 : m ∉ _) h

theorem comparePair_shared_prov (shared : List String) (a b : SplitProgram)
    {n : String} (h : n ∈ (comparePair shared a b).1) :
    n ∈ shared ∨ n ∈ a.needs :=
  foldPair_shared_prov a.needs (shared, a.shared, b) h

theorem comparePair_aUnion (shared : List String) (a b : SplitProgram)
    (n : String) :
    (n ∈ (comparePair shared a b).2.1.needs
      ∨ n ∈ (comparePair shared a b).2.1.shared)
    ↔ (n ∈ a.needs ∨ n ∈ a.shared) := by
  constructor
  · rintro (h | h)
    · exact Or.inl (comparePair_aNeeds_sub shared a b h)
    · rcases foldPair_aShared_prov a.needs (shared, a.shared, b) h with h | h
      · exact Or.inr h
      · exact Or.inl h
  · rintro (h | h)
    · by_cases hm : n ∈ (a.needs.foldl pairStep (shared, a.shared, b)).2.1
      · exact Or.inr hm
      · exact Or.inl (List.mem_filter.mpr ⟨h, by simpa using hm⟩)
    · exact Or.inr (foldPair_aShared_mono a.needs (shared, a.shared, b) h)

theorem comparePair_bUnion (shared : List String) (a b : SplitProgram)
    (n : String) :
    (n ∈ (comparePair shared a b).2.2.needs
      ∨ n ∈ (comparePair shared a b).2.2.shared)
    ↔ (n ∈ b.needs ∨ n ∈ b.shared) := by
  constructor
  · rintro (h | h)
    · exact Or.inl (comparePair_bNeeds_sub shared a b h)
    · rcases foldPair_bShared_prov a.needs (shared, a.shared, b) h with h | h
      · exact Or.inr h
      · exact Or.inl h
  · rintro (h | h)
    · rcases foldPair_bUnion a.needs (shared, a.shared, b) h with h | ⟨_, h⟩
      · exact Or.inl h
      · exact Or.inr h
    · exact Or.inr (foldPair_bShared_mono a.needs (shared, a.shared, b) h)

theorem comparePair_aDisjoint (shared : List String) (a b : SplitProgram) :
    ∀ m ∈ (comparePair shared a b).2.1.needs,
      m ∉ (comparePair shared a b).2.1.shared := by
  intro m hm
  simpa using (List.mem_filter.mp hm).2

theorem comparePair_bDisjoint (shared : List String) (a b : SplitProgram)
    (hd : ∀ m ∈ b.needs, m ∉ b.shared) :
    ∀ m ∈ (comparePair shared a b).2.2.needs,
      m ∉ (comparePair shared a b).2.2.shared :=
  foldPair_bDisjoint a.needs (shared, a.shared, b) hd

/-! ### Facts about the `for (const s of shared.values())` loop (`step1`) -/

theorem step1Fun_needs_sub {a : SplitProgram} {s n : String}
    (h : n ∈ (step1Fun a s).needs) : n ∈ a.needs := by
  unfold step1Fun at h
  by_cases hs : s ∈ a.needs <;> simp_all [mem_jsSetDelete]

theorem step1Fun_keep {a : SplitProgram} {s n : String} (h : n ∈ a.needs)
    (hne : n ≠ s) : n ∈ (step1Fun a s).needs := by
  unfold step1Fun
  by_cases hs : s ∈ a.needs <;> simp_all [mem_jsSetDelete]

theorem step1Fun_shared_mono {a : SplitProgram} {s n : String}
    (h : n ∈ a.shared) : n ∈ (step1Fun a s).shared := by
  unfold step1Fun
  by_cases hs : s ∈ a.needs <;> simp_all [mem_jsSetAdd]

theorem step1Fun_shared_prov {a : SplitProgram} {s n : String}
    (h : n ∈ (step1Fun a s).shared) :
    n ∈ a.shared ∨ (n = s ∧ n ∈ a.needs) := by
  unfold step1Fun at h
  by_cases hs : s ∈ a.needs <;> simp_all [mem_jsSetAdd]
  rcases h with h | h
  · exact Or.inl h
  · exact Or.inr ⟨h, h ▸ hs⟩

theorem step1Fun_name (a : SplitProgram) (s : String) :
    (step1Fun a s).name = a.name := by
  unfold step1Fun
  by_cases hs : s ∈ a.needs <;> simp [hs]

theorem step1Fun_not_mem (a : SplitProgram) (s : String) :
    s ∉ (step1Fun a s).needs := by
  unfold step1Fun
  by_cases hs : s ∈ a.needs <;> simp_all [mem_jsSetDelete]

theorem step1Fun_union {a : SplitProgram} {s n : String}
    (h : n ∈ a.needs ∨ n ∈ a.shared) :
    n ∈ (step1Fun a s).needs ∨ n ∈ (step1Fun a s).shared := by
  rcases h with h | h
  · by_cases hne : n = s
    · subst hne
      unfold step1Fun
      simp [h, mem_jsSetAdd]
    · exact Or.inl (step1Fun_keep h hne)
  · exact Or.inr (step1Fun_shared_mono h)

theorem step1Fun_disjoint {a : SplitProgram}
    (hd : ∀ m ∈ a.needs, m ∉ a.shared) (s : String) :
    ∀ m ∈ (step1Fun a s).needs, m ∉ (step1Fun a s).shared := by
  intro m hm hms
  have hmn := step1Fun_needs_sub hm
  rcases step1Fun_shared_prov hms with h | ⟨he, _⟩
  · exact hd m hmn h
  · rw [he] at hm
    exact step1Fun_not_mem a s hm

theorem step1_needs_sub : ∀ (l : List String) (a : SplitProgram) {n : String},
    n ∈ (l.foldl step1Fun a).needs → n ∈ a.needs
  | [], _, _, h => h
  | s :: l, a, _, h => step1Fun_needs_sub (step1_needs_sub l (step1Fun a s) h)

theorem step1_needs_or_mem : ∀ (l : List String) (a : SplitProgram) {n : String},
    n ∈ a.needs → n ∈ (l.foldl step1Fun a).needs ∨ n ∈ l
  | [], _, _, h => Or.inl h
  | s :: l, a, n, h => by
    by_cases hne : n = s
    · exact Or.inr (hne ▸ List.mem_cons_self _ _)
    · rcases step1_needs_or_mem l (step1Fun a s) (step1Fun_keep h hne) with h | h
      · exact Or.inl h
      · exact Or.inr (List.mem_cons_of_mem _ h)

theorem step1_not_mem : ∀ (l : List String) (a : SplitProgram) {s : String},
    s ∈ l → s ∉ (l.foldl step1Fun a).needs
  | [], _, _, h => absurd h (List.not_mem_nil _)
  | x :: l, a, s, h => by
    by_cases he : s = x
    · subst he
      intro hmem
      exact step1Fun_not_mem a s (step1_needs_sub l (step1Fun a s) hmem)
    · rcases List.mem_cons.mp h with h | h
      · exact absurd h he
      · exact step1_not_mem l (step1Fun a x) h

theorem step1_union : ∀ (l : List String) (a : SplitProgram) {n : String},
    n ∈ a.needs ∨ n ∈ a.shared →
    n ∈ (l.foldl step1Fun a).needs ∨ n ∈ (l.foldl step1Fun a).shared
  | [], _, _, h => h
  | s :: l, a, _, h => step1_union l (step1Fun a s) (step1Fun_union h)

theorem step1_shared_prov : ∀ (l : List String) (a : SplitProgram) {n : String},
    n ∈ (l.foldl step1Fun a).shared → n ∈ a.shared ∨ n ∈ a.needs
  | [], _, _, h => Or.inl h
  | s :: l, a, n, h => by
    rcases step1_shared_prov l (step1Fun a s) h with h | h
    · rcases step1Fun_shared_prov h with h | ⟨_, h⟩
      · exact Or.inl h
      · exact Or.inr h
    · exact Or.inr (step1Fun_needs_sub h)

theorem step1_shared_inv : ∀ (l : List String) (a : SplitProgram)
    {S : List String}, (∀ m ∈ a.shared, m ∈ S) → (∀ m ∈ l, m ∈ S) →
    ∀ m ∈ (l.foldl step1Fun a).shared, m ∈ S
  | [], _, _, ha, _ => ha
  | s :: l, a, S, ha, hl =>
    step1_shared_inv l (step1Fun a s)
      (fun m hm => by
        rcases step1Fun_shared_prov hm with h | ⟨he, _⟩
        · exact ha m h
        · exact he ▸ hl s (List.mem_cons_self _ _))
      (fun m hm => hl m (List.mem_cons_of_mem _ hm))

theorem step1_disjoint : ∀ (l : List String) (a : SplitProgram),
    (∀ m ∈ a.needs, m ∉ a.shared) →
    ∀ m ∈ (l.foldl step1Fun a).needs, m ∉ (l.foldl step1Fun a).shared
  | [], _, hd => hd
  | s :: l, a, hd => step1_disjoint l (step1Fun a s) (step1Fun_disjoint hd s)

theorem step1_name : ∀ (l : List String) (a : SplitProgram),
    (l.foldl step1Fun a).name = a.name
  | [], _ => rfl
  | s :: l, a => (step1_name l (step1Fun a s)).trans (step1Fun_name a s)

/-! ### Facts about the full inner loop over all later programs (`compareAll`) -/

theorem compareAll_length : ∀ (sh : List String) (a : SplitProgram)
    (bs : List SplitProgram), (compareAll sh a bs).2.2.length = bs.length
  | _, _, [] => rfl
  | sh, a, b :: bs => by
    simp only [compareAll, List.length_cons]
    rw [compareAll_length]

theorem compareAll_shared_mono : ∀ (sh : List String) (a : SplitProgram)
    (bs : List SplitProgram) {n : String}, n ∈ sh → n ∈ (compareAll sh a bs).1
  | _, _, [], _, h => h
  | sh, a, b :: bs, n, h => by
    simp only [compareAll]
    exact compareAll_shared_mono _ _ bs (comparePair_shared_mono sh a b h)

theorem compareAll_aNeeds_sub : ∀ (sh : List String) (a : SplitProgram)
    (bs : List SplitProgram) {n : String},
    n ∈ (compareAll sh a bs).2.1.needs → n ∈ a.needs
  | _, _, [], _, h => h
  | sh, a, b :: bs, n, h => by
    simp only [compareAll] at h
    exact comparePair_aNeeds_sub sh a b (compareAll_aNeeds_sub _ _ bs h)

theorem compareAll_inv : ∀ (sh : List String) (a : SplitProgram)
    (bs : List SplitProgram),
    (∀ m ∈ a.shared, m ∈ sh) → (∀ b ∈ bs, ∀ m ∈ b.shared, m ∈ sh) →
    (∀ m ∈ (compareAll sh a bs).2.1.shared, m ∈ (compareAll sh a bs).1)
    ∧ (∀ b' ∈ (compareAll sh a bs).2.2, ∀ m ∈ b'.shared,
        m ∈ (compareAll sh a bs).1)
  | _, _, [], ha, _ => ⟨ha, fun b' hb' => absurd hb' (List.not_mem_nil _)⟩
  | sh, a, b :: bs, ha, hb => by
    simp only [compareAll]
    have hcp := comparePair_inv sh a b ha (hb b (List.mem_cons_self _ _))
    have hrest := compareAll_inv (comparePair sh a b).1 (comparePair sh a b).2.1 bs
      hcp.1
      (fun b' hb' m hm =>
        comparePair_shared_mono sh a b (hb b' (List.mem_cons_of_mem _ hb') m hm))
    refine ⟨hrest.1, ?_⟩
    intro b' hb' m hm
    rcases List.mem_cons.mp hb' with he | hb'
    · subst he
      exact compareAll_shared_mono _ _ bs (hcp.2 m hm)
    · exact hrest.2 b' hb' m hm

theorem compareAll_aCase : ∀ (sh : List String) (a : SplitProgram)
    (bs : List SplitProgram) {n : String},
    (∀ m ∈ a.shared, m ∈ sh) → (∀ b ∈ bs, ∀ m ∈ b.shared, m ∈ sh) →
    n ∈ a.needs →
    n ∈ (compareAll sh a bs).2.1.needs ∨ n ∈ (compareAll sh a bs).1
  | _, _, [], _, _, _, h => Or.inl h
  | sh, a, b :: bs, n, ha, hb, h => by
    simp only [compareAll]
    rcases comparePair_aCase sh a b ha (hb b (List.mem_cons_self _ _)) h with
      h1 | h1
    · exact compareAll_aCase _ _ bs
        (comparePair_inv sh a b ha (hb b (List.mem_cons_self _ _))).1
        (fun b' hb' m hm =>
          comparePair_shared_mono sh a b (hb b' (List.mem_cons_of_mem _ hb') m hm))
        h1
    · exact Or.inr (compareAll_shared_mono _ _ bs h1)

theorem compareAll_promote : ∀ (sh : List String) (a : SplitProgram)
    (bs : List SplitProgram) {n : String} (i : Nat) (hi : i < bs.length),
    (∀ m ∈ a.shared, m ∈ sh) → (∀ b ∈ bs, ∀ m ∈ b.shared, m ∈ sh) →
    n ∈ a.needs → n ∈ (bs.get ⟨i, hi⟩).needs →
    n ∈ (compareAll sh a bs).1
  | sh, a, b :: bs, n, 0, _, _, _, ha, hb => by
    simp only [compareAll, List.get_cons_zero] at hb ⊢
    exact compareAll_shared_mono _ _ bs (comparePair_promote sh a b ha hb)
  | sh, a, b :: bs, n, i + 1, hi, hInva, hInvb, ha, hb => by
    simp only [compareAll]
    rcases comparePair_aCase sh a b hInva
        (hInvb b (List.mem_cons_self _ _)) ha with h1 | h1
    · exact compareAll_promote _ _ bs i (by simpa using hi)
        (comparePair_inv sh a b hInva (hInvb b (List.mem_cons_self _ _))).1
        (fun b' hb' m hm =>
          comparePair_shared_mono sh a b
            (hInvb b' (List.mem_cons_of_mem _ hb') m hm))
        h1 (by simpa using hb)
    · exact compareAll_shared_mono _ _ bs h1

theorem compareAll_bCase : ∀ (sh : List String) (a : SplitProgram)
    (bs : List SplitProgram) {n : String} (i : Nat) (hi : i < bs.length)
    (hi' : i < (compareAll sh a bs).2.2.length),
    n ∈ (bs.get ⟨i, hi⟩).needs →
    n ∈ ((compareAll sh a bs).2.2.get ⟨i, hi'⟩).needs
      ∨ n ∈ (compareAll sh a bs).1
  | sh, a, b :: bs, n, 0, _, hi', hb => by
    simp only [compareAll, List.get_cons_zero] at hb hi' ⊢
    rcases comparePair_bCase sh a b hb with h | h
    · exact Or.inl h
    · exact Or.inr (compareAll_shared_mono _ _ bs h)
  | sh, a, b :: bs, n, i + 1, hi, hi', hb => by
    simp only [compareAll, List.get_cons_succ] at hb hi' ⊢
    exact compareAll_bCase _ _ bs i (by simpa using hi) (by simpa using hi')
      (by simpa using hb)

theorem compareAll_bNeeds_sub : ∀ (sh : List String) (a : SplitProgram)
    (bs : List SplitProgram) {n : String} (i : Nat) (hi : i < bs.length)
    (hi' : i < (compareAll sh a bs).2.2.length),
    n ∈ ((compareAll sh a bs).2.2.get ⟨i, hi'⟩).needs →
    n ∈ (bs.get ⟨i, hi⟩).needs
  | sh, a, b :: bs, n, 0, _, hi', hb => by
    simp only [compareAll, List.get_cons_zero] at hb ⊢
    exact comparePair_bNeeds_sub sh a b hb
  | sh, a, b :: bs, n, i + 1, hi, hi', hb => by
    simp only [compareAll, List.get_cons_succ] at hb ⊢
    exact compareAll_bNeeds_sub _ _ bs i (by simpa using hi) _ hb

theorem compareAll_aNeeds_vs_b : ∀ (sh : List String) (a : SplitProgram)
    (bs : List SplitProgram) {n : String} (i : Nat)
    (hi' : i < (compareAll sh a bs).2.2.length),
    n ∈ (compareAll sh a bs).2.1.needs →
    n ∉ ((compareAll sh a bs).2.2.get ⟨i, hi'⟩).needs
  | sh, a, b :: bs, n, 0, hi', ha => by
    simp only [compareAll, List.get_cons_zero] at ha hi' ⊢
    have h1 : n ∈ (comparePair sh a b).2.1.needs :=
      compareAll_aNeeds_sub _ _ bs ha
    exact comparePair_aNeeds_vs_bNeeds sh a b h1
  | sh, a, b :: bs, n, i + 1, hi', ha => by
    simp only [compareAll, List.get_cons_succ] at ha hi' ⊢
    exact compareAll_aNeeds_vs_b _ _ bs i (by simpa using hi') ha

theorem compareAll_aNeeds_not_shared : ∀ (sh : List String) (a : SplitProgram)
    (bs : List SplitProgram), (∀ m ∈ a.needs, m ∉ sh) →
    ∀ m ∈ (compareAll sh a bs).2.1.needs, m ∉ (compareAll sh a bs).1
  | _, _, [], hsh => hsh
  | sh, a, b :: bs, hsh => by
    simp only [compareAll]
    exact compareAll_aNeeds_not_shared _ _ bs
      (comparePair_aNeeds_not_shared sh a b hsh)

theorem compareAll_shared_prov : ∀ (sh : List String) (a : SplitProgram)
    (bs : List SplitProgram) {n : String},
    n ∈ (compareAll sh a bs).1 → n ∈ sh ∨ n ∈ a.needs
  | _, _, [], _, h => Or.inl h
  | sh, a, b :: bs, n, h => by
    simp only [compareAll] at h
    rcases compareAll_shared_prov _ _ bs h with h | h
    · rcases comparePair_shared_prov sh a b h with h | h
      · exact Or.inl h
      · exact Or.inr h
    · exact Or.inr (comparePair_aNeeds_sub sh a b h)

theorem compareAll_aUnion : ∀ (sh : List String) (a : SplitProgram)
    (bs : List SplitProgram) (n : String),
    (n ∈ (compareAll sh a bs).2.1.needs ∨ n ∈ (compareAll sh a bs).2.1.shared)
    ↔ (n ∈ a.needs ∨ n ∈ a.shared)
  | _, _, [], _ => Iff.rfl
  | sh, a, b :: bs, n => by
    simp only [compareAll]
    rw [compareAll_aUnion _ _ bs n]
    exact comparePair_aUnion sh a b n

theorem compareAll_bUnion : ∀ (sh : List String) (a : SplitProgram)
    (bs : List SplitProgram) (n : String) (i : Nat) (hi : i < bs.length)
    (hi' : i < (compareAll sh a bs).2.2.length),
    (n ∈ ((compareAll sh a bs).2.2.get ⟨i, hi'⟩).needs
      ∨ n ∈ ((compareAll sh a bs).2.2.get ⟨i, hi'⟩).shared)
    ↔ (n ∈ (bs.get ⟨i, hi⟩).needs ∨ n ∈ (bs.get ⟨i, hi⟩).shared)
  | sh, a, b :: bs, n, 0, _, hi' => by
    simp only [compareAll, List.get_cons_zero]
    exact comparePair_bUnion sh a b n
  | sh, a, b :: bs, n, i + 1, hi, hi' => by
    simp only [compareAll, List.get_cons_succ]
    exact compareAll_bUnion _ _ bs n i (by simpa using hi) _

theorem compareAll_aDisjoint : ∀ (sh : List String) (a : SplitProgram)
    (bs : List SplitProgram), (∀ m ∈ a.needs, m ∉ a.shared) →
    ∀ m ∈ (compareAll sh a bs).2.1.needs, m ∉ (compareAll sh a bs).2.1.shared
  | _, _, [], hd => hd
  | sh, a, b :: bs, _ => by
    simp only [compareAll]
    exact compareAll_aDisjoint _ _ bs (comparePair_aDisjoint sh a b)

theorem compareAll_bDisjoint : ∀ (sh : List String) (a : SplitProgram)
    (bs : List SplitProgram), (∀ b ∈ bs, ∀ m ∈ b.needs, m ∉ b.shared) →
    ∀ b' ∈ (compareAll sh a bs).2.2, ∀ m ∈ b'.needs, m ∉ b'.shared
  | _, _, [], _ => fun b' hb' => absurd hb' (List.not_mem_nil _)
  | sh, a, b :: bs, hd => by
    simp only [compareAll]
    intro b' hb'
    rcases List.mem_cons.mp hb' with he | hb'
    · subst he
      exact comparePair_bDisjoint sh a b (hd b (List.mem_cons_self _ _))
    · exact compareAll_bDisjoint _ _ bs
        (fun q hq => hd q (List.mem_cons_of_mem _ hq)) b' hb'

theorem compareAll_allow : ∀ (sh : List String) (a : SplitProgram)
    (bs : List SplitProgram) {n : String}, bs ≠ [] → n ∈ a.needs →
    n ∈ elementsToAlwaysShare → n ∈ (compareAll sh a bs).1
  | _, _, [], _, hne, _, _ => absurd rfl hne
  | sh, a, b :: bs, _, _, ha, hl => by
    simp only [compareAll]
    exact compareAll_shared_mono _ _ bs (comparePair_allow sh a b ha hl)

/-! ### Facts about the outer loop (`transformStateForSplitMode1`) -/

theorem transform_length : ∀ (sh : List String) (ps : List SplitProgram),
    (transformStateForSplitMode1 sh ps).2.length = ps.length := by
  intro sh ps
  induction sh, ps using transformStateForSplitMode1.induct with
  | case1 sh => simp [transformStateForSplitMode1]
  | case2 sh b bs a1 st ih =>
    have hst : st = compareAll sh (step1 sh b) bs := rfl
    rw [hst] at ih
    simp only [transformStateForSplitMode1, List.length_cons]
    rw [ih, compareAll_length]

theorem transform_shared_mono : ∀ (sh : List String) (ps : List SplitProgram)
    {n : String}, n ∈ sh → n ∈ (transformStateForSplitMode1 sh ps).1 := by
  intro sh ps
  induction sh, ps using transformStateForSplitMode1.induct with
  | case1 sh => intro n h; simpa [transformStateForSplitMode1] using h
  | case2 sh b bs a1 st =>
    rename_i ih
    intro n h
    simp only [transformStateForSplitMode1]
    exact ih (compareAll_shared_mono sh (step1 sh b) bs h)

theorem transform_shared_prov : ∀ (sh : List String) (ps : List SplitProgram)
    {n : String}, n ∈ (transformStateForSplitMode1 sh ps).1 →
    n ∈ sh ∨ ∃ (i : Nat) (hi : i < ps.length), n ∈ (ps.get ⟨i, hi⟩).needs := by
  intro sh ps
  induction sh, ps using transformStateForSplitMode1.induct with
  | case1 sh => intro n h; exact Or.inl (by simpa [transformStateForSplitMode1] using h)
  | case2 sh b bs a1 st =>
    rename_i ih
    intro n h
    simp only [transformStateForSplitMode1] at h
    rcases ih h with h | ⟨i, hi, hmem⟩
    · rcases compareAll_shared_prov sh (step1 sh b) bs h with h | h
      · exact Or.inl h
      · exact Or.inr ⟨0, by simp, step1_needs_sub sh b h⟩
    · have hi0 : i < bs.length := by
        rw [compareAll_length] at hi
        exact hi
      refine Or.inr ⟨i + 1, by simpa using hi0, ?_⟩
      simpa using compareAll_bNeeds_sub sh (step1 sh b) bs i hi0 hi hmem

theorem step1_union_iff (sh : List String) (b : SplitProgram) (n : String) :
    (n ∈ (step1 sh b).needs ∨ n ∈ (step1 sh b).shared)
    ↔ (n ∈ b.needs ∨ n ∈ b.shared) := by
  constructor
  · rintro (h | h)
    · exact Or.inl (step1_needs_sub sh b h)
    · rcases step1_shared_prov sh b h with h | h
      · exact Or.inr h
      · exact Or.inl h
  · exact step1_union sh b

/-- C1's core: a name initially in the `needs` of the programs at two
positions `i < j` ends up in the global shared set, provided every program's
`shared` set is initially covered by the global one. -/
theorem transform_promote : ∀ (sh : List String) (ps : List SplitProgram),
    (∀ p ∈ ps, ∀ m ∈ p.shared, m ∈ sh) →
    ∀ (i j : Nat) (hi : i < ps.length) (hj : j < ps.length), i < j →
    ∀ {n : String}, n ∈ (ps.get ⟨i, hi⟩).needs → n ∈ (ps.get ⟨j, hj⟩).needs →
    n ∈ (transformStateForSplitMode1 sh ps).1 := by
  intro sh ps
  induction sh, ps using transformStateForSplitMode1.induct with
  | case1 sh =>
    intro _ i j hi hj hij n hni hnj
    exact absurd hi (by simp)
  | case2 sh b bs a1 st =>
    rename_i ih
    intro hInv i j hi hj hij n hni hnj
    simp only [transformStateForSplitMode1]
    have hInvb : ∀ q ∈ bs, ∀ m ∈ q.shared, m ∈ sh :=
      fun q hq => hInv q (List.mem_cons_of_mem _ hq)
    have hInva1 : ∀ m ∈ (step1 sh b).shared, m ∈ sh :=
      step1_shared_inv sh b (hInv b (List.mem_cons_self _ _)) (fun _ hm => hm)
    match j, hj, hnj with
    | j' + 1, hj, hnj =>
      have hj' : j' < bs.length := by simpa using hj
      have hnj' : n ∈ (bs.get ⟨j', hj'⟩).needs := by simpa using hnj
      match i, hi, hni with
      | 0, hi, hni =>
        have hni' : n ∈ b.needs := by simpa using hni
        rcases step1_needs_or_mem sh b hni' with h | h
        · exact transform_shared_mono _ _
            (compareAll_promote sh (step1 sh b) bs j' hj' hInva1 hInvb h hnj')
        · exact transform_shared_mono _ _
            (compareAll_shared_mono sh (step1 sh b) bs h)
      | i' + 1, hi, hni =>
        have hi' : i' < bs.length := by simpa using hi
        have hni' : n ∈ (bs.get ⟨i', hi'⟩).needs := by simpa using hni
        have hlen : bs.length = (compareAll sh (step1 sh b) bs).2.2.length :=
          (compareAll_length sh (step1 sh b) bs).symm
        rcases compareAll_bCase sh (step1 sh b) bs i' hi' (hlen ▸ hi') hni' with
          hmi | hmi
        · rcases compareAll_bCase sh (step1 sh b) bs j' hj' (hlen ▸ hj') hnj' with
            hmj | hmj
          · exact ih
              (compareAll_inv sh (step1 sh b) bs hInva1 hInvb).2
              i' j' (hlen ▸ hi') (hlen ▸ hj') (by omega) hmi hmj
          · exact transform_shared_mono _ _ hmj
        · exact transform_shared_mono _ _ hmi

/-- C2's core: after the transformation every program's `needs` is disjoint
from its own `shared` and from the final global shared set, provided the
per-program `needs` and `shared` sets are disjoint at entry. -/
theorem transform_disjoint : ∀ (sh : List String) (ps : List SplitProgram),
    (∀ p ∈ ps, ∀ m ∈ p.needs, m ∉ p.shared) →
    ∀ p' ∈ (transformStateForSplitMode1 sh ps).2,
      (∀ m ∈ p'.needs, m ∉ p'.shared)
      ∧ (∀ m ∈ p'.needs, m ∉ (transformStateForSplitMode1 sh ps).1) := by
  intro sh ps
  induction sh, ps using transformStateForSplitMode1.induct with
  | case1 sh =>
    intro _ p' hp'
    simp [transformStateForSplitMode1] at hp'
  | case2 sh b bs a1 st =>
    rename_i ih
    intro hd p' hp'
    simp only [transformStateForSplitMode1] at hp' ⊢
    rcases List.mem_cons.mp hp' with he | hp'
    · subst he
      have hsh1 : ∀ m ∈ (step1 sh b).needs, m ∉ sh :=
        fun m hm' hin => step1_not_mem sh b hin hm'
      constructor
      · exact compareAll_aDisjoint sh (step1 sh b) bs
          (step1_disjoint sh b (hd b (List.mem_cons_self _ _)))
      · intro m hm hsh3
        have hnotst : m ∉ (compareAll sh (step1 sh b) bs).1 :=
          compareAll_aNeeds_not_shared sh (step1 sh b) bs hsh1 m hm
        rcases transform_shared_prov _ _ hsh3 with h | ⟨k, hk, hkm⟩
        · exact hnotst h
        · exact compareAll_aNeeds_vs_b sh (step1 sh b) bs k hk hm hkm
    · exact ih
        (compareAll_bDisjoint sh (step1 sh b) bs
          (fun q hq => hd q (List.mem_cons_of_mem _ hq)))
        p' hp'

/-- C9's core: positionally, every program's `needs ∪ shared` is unchanged by
the transformation. -/
theorem transform_union : ∀ (sh : List String) (ps : List SplitProgram)
    (i : Nat) (hi : i < ps.length)
    (hi' : i < (transformStateForSplitMode1 sh ps).2.length) (n : String),
    (n ∈ ((transformStateForSplitMode1 sh ps).2.get ⟨i, hi'⟩).needs
      ∨ n ∈ ((transformStateForSplitMode1 sh ps).2.get ⟨i, hi'⟩).shared)
    ↔ (n ∈ (ps.get ⟨i, hi⟩).needs ∨ n ∈ (ps.get ⟨i, hi⟩).shared) := by
  intro sh ps
  induction sh, ps using transformStateForSplitMode1.induct with
  | case1 sh =>
    intro i hi _ _
    exact absurd hi (by simp)
  | case2 sh b bs a1 st =>
    rename_i ih
    intro i hi hi' n
    have hg : (transformStateForSplitMode1 sh (b :: bs)).2
        = (compareAll sh (step1 sh b) bs).2.1 ::
          (transformStateForSplitMode1 (compareAll sh (step1 sh b) bs).1
            (compareAll sh (step1 sh b) bs).2.2).2 := by
      simp only [transformStateForSplitMode1]
    rw [List.get_of_eq hg]
    match i, hi with
    | 0, hi =>
      simp only [List.get_cons_zero]
      exact (compareAll_aUnion sh (step1 sh b) bs n).trans (step1_union_iff sh b n)
    | i' + 1, hi =>
      have hi1 : i' < bs.length := by simpa using hi
      have hlen : bs.length = (compareAll sh (step1 sh b) bs).2.2.length :=
        (compareAll_length sh (step1 sh b) bs).symm
      have hit : i' < (transformStateForSplitMode1
          (compareAll sh (step1 sh b) bs).1
          (compareAll sh (step1 sh b) bs).2.2).2.length := by
        rw [transform_length, ← hlen]
        exact hi1
      simp only [List.get_cons_succ]
      exact (ih i' (hlen ▸ hi1) hit n).trans
        (compareAll_bUnion sh (step1 sh b) bs n i' hi1 (hlen ▸ hi1))

/-- C3's (amended) core: a forced-share allowlist name needed by a program
that is followed by at least one later program ends up in the global shared
set. -/
theorem transform_allow : ∀ (sh : List String) (ps : List SplitProgram)
    (i : Nat) (hi : i < ps.length), i + 1 < ps.length →
    ∀ {n : String}, n ∈ elementsToAlwaysShare →
    n ∈ (ps.get ⟨i, hi⟩).needs → n ∈ (transformStateForSplitMode1 sh ps).1 := by
  intro sh ps
  induction sh, ps using transformStateForSplitMode1.induct with
  | case1 sh =>
    intro i hi _ _ _ _
    exact absurd hi (by simp)
  | case2 sh b bs a1 st =>
    rename_i ih
    intro i hi hi1 n hallow hmem
    simp only [transformStateForSplitMode1]
    match i, hi, hmem with
    | 0, hi, hmem =>
      have hbs : bs ≠ [] := by
        intro he
        subst he
        simp at hi1
      have hmem' : n ∈ b.needs := by simpa using hmem
      rcases step1_needs_or_mem sh b hmem' with h | h
      · exact transform_shared_mono _ _
          (compareAll_allow sh (step1 sh b) bs hbs h hallow)
      · exact transform_shared_mono _ _
          (compareAll_shared_mono sh (step1 sh b) bs h)
    | i' + 1, hi, hmem =>
      have hi' : i' < bs.length := by simpa using hi
      have hmem' : n ∈ (bs.get ⟨i', hi'⟩).needs := by simpa using hmem
      have hlen : bs.length = (compareAll sh (step1 sh b) bs).2.2.length :=
        (compareAll_length sh (step1 sh b) bs).symm
      rcases compareAll_bCase sh (step1 sh b) bs i' hi' (hlen ▸ hi') hmem' with
        hmi | hmi
      · exact ih i' (hlen ▸ hi') (by
          rw [← hlen]
          simpa using hi1) hallow hmi
      · exact transform_shared_mono _ _ hmi

end SplitPlanner

/-- C1: for every planner input (programs carrying their needs sets, with
per-program shared sets empty as `splitWith1stMode` builds them, and an
arbitrary initial global shared set), every name initially in the needs sets
of two programs at distinct positions is in the final global shared set. -/
theorem C1_shared_superset_of_pairwise (sh : List String)
    (ps : List SplitPlanner.SplitProgram)
    (h0 : ∀ p ∈ ps, p.shared = [])
    (i j : Nat) (hi : i < ps.length) (hj : j < ps.length) (hij : i ≠ j)
    (n : String)
    (hni : n ∈ (ps.get ⟨i, hi⟩).needs) (hnj : n ∈ (ps.get ⟨j, hj⟩).needs) :
    n ∈ (SplitPlanner.transformStateForSplitMode1 sh ps).1 := by
  have hInv : ∀ p ∈ ps, ∀ m ∈ p.shared, m ∈ sh := by
    intro p hp m hm
    rw [h0 p hp] at hm
    exact absurd hm (List.not_mem_nil m)
  rcases Nat.lt_or_ge i j with h | h
  · exact SplitPlanner.transform_promote sh ps hInv i j hi hj h hni hnj
  · exact SplitPlanner.transform_promote sh ps hInv j i hj hi
      (lt_of_le_of_ne h (Ne.symm hij)) hnj hni

/-- Witness for `C1_shared_superset_of_pairwise`: the spec's worked planner
scenario — programs `one` (needs `{a, b}`) and `two` (needs `{c, d, b}`),
initial shared `{d}`; the common need `b` ends up shared. -/
theorem C1_shared_superset_of_pairwise_witness :
    "b" ∈ (SplitPlanner.transformStateForSplitMode1 ["d"]
      [⟨"one", ["a", "b"], []⟩, ⟨"two", ["c", "d", "b"], []⟩]).1 :=
  C1_shared_superset_of_pairwise ["d"]
    [⟨"one", ["a", "b"], []⟩, ⟨"two", ["c", "d", "b"], []⟩]
    (by decide)
    0 1 (by decide) (by decide) (by decide) "b" (by decide) (by decide)

/-- C2: after planning, every program's `needs` set is disjoint from its own
`shared` set and from the final global shared set (per-program shared sets
start empty, as the planner is invoked). -/
theorem C2_needs_disjoint_from_shared (sh : List String)
    (ps : List SplitPlanner.SplitProgram)
    (h0 : ∀ p ∈ ps, p.shared = []) :
    ∀ p' ∈ (SplitPlanner.transformStateForSplitMode1 sh ps).2,
      (∀ m ∈ p'.needs, m ∉ p'.shared)
      ∧ (∀ m ∈ p'.needs,
          m ∉ (SplitPlanner.transformStateForSplitMode1 sh ps).1) :=
  SplitPlanner.transform_disjoint sh ps
    (fun p hp m _ hms => by
      rw [h0 p hp] at hms
      exact absurd hms (List.not_mem_nil m))

/-- Witness for `C2_needs_disjoint_from_shared` on the spec's worked planner
scenario, instantiated at the first output program (`one` with needs `{a}`,
shared `{b}`). -/
theorem C2_needs_disjoint_from_shared_witness :
    (∀ m ∈ (SplitPlanner.SplitProgram.mk "one" ["a"] ["b"]).needs,
        m ∉ (SplitPlanner.SplitProgram.mk "one" ["a"] ["b"]).shared)
    ∧ (∀ m ∈ (SplitPlanner.SplitProgram.mk "one" ["a"] ["b"]).needs,
        m ∉ (SplitPlanner.transformStateForSplitMode1 ["d"]
          [⟨"one", ["a", "b"], []⟩, ⟨"two", ["c", "d", "b"], []⟩]).1) :=
  C2_needs_disjoint_from_shared ["d"]
    [⟨"one", ["a", "b"], []⟩, ⟨"two", ["c", "d", "b"], []⟩]
    (by decide)
    ⟨"one", ["a"], ["b"]⟩
    (by
      have heval : SplitPlanner.transformStateForSplitMode1 ["d"]
          [⟨"one", ["a", "b"], []⟩, ⟨"two", ["c", "d", "b"], []⟩]
          = (["d", "b"],
             [⟨"one", ["a"], ["b"]⟩, ⟨"two", ["c"], ["b", "d"]⟩]) := by
        simp [SplitPlanner.transformStateForSplitMode1, SplitPlanner.compareAll,
          SplitPlanner.comparePair, SplitPlanner.pairStep, SplitPlanner.step1,
          SplitPlanner.step1Fun, SplitPlanner.elementsToAlwaysShare,
          jsSetAdd, jsSetDelete]
      rw [heval]
      simp)

/-- C3, counterexample.  The global shared set is initialized from the
unnamed chunks' needs only — `new Set(map.unnamed.flatMap(({ needs }) =>
needs))` — not from its union with the forced-share allowlist; the allowlist
is consulted only inside the loop over `programs.slice(index + 1)`, which
never runs for the last program.  With no unnamed chunks and the allowlist
name `_Platform_initialize` needed only by the last of two programs, the
final shared set is empty, although the claim requires the name to be
shared regardless of the program's position. -/
theorem C3_forced_share_counterexample :
    SplitPlanner.initialShared [] = []
    ∧ "_Platform_initialize" ∈ SplitPlanner.elementsToAlwaysShare
    ∧ (SplitPlanner.transformStateForSplitMode1 []
        [⟨"one", ["x"], []⟩, ⟨"two", ["_Platform_initialize"], []⟩]).1 = [] := by
  refine ⟨rfl, by decide, ?_⟩
  simp [SplitPlanner.transformStateForSplitMode1, SplitPlanner.compareAll,
    SplitPlanner.comparePair, SplitPlanner.pairStep, SplitPlanner.step1,
    SplitPlanner.step1Fun, SplitPlanner.elementsToAlwaysShare,
    jsSetAdd, jsSetDelete]

/-- C3, amended: the global shared set is initialized from the unnamed
chunks' needs only; a forced-share allowlist name that a program needs ends
up in the final shared set whenever that program is followed by at least one
later program in the input list (the allowlist check runs inside the loop
over later programs, so the last program's needs are never inspected). -/
theorem C3_forced_share_nonlast (sh : List String)
    (ps : List SplitPlanner.SplitProgram)
    (i : Nat) (hi : i < ps.length) (hlast : i + 1 < ps.length) (n : String)
    (hallow : n ∈ SplitPlanner.elementsToAlwaysShare)
    (hmem : n ∈ (ps.get ⟨i, hi⟩).needs) :
    n ∈ (SplitPlanner.transformStateForSplitMode1 sh ps).1 :=
  SplitPlanner.transform_allow sh ps i hi hlast hallow hmem

/-- Witness for `C3_forced_share_nonlast`: the allowlist name
`_Platform_initialize` needed by the first of two programs is shared. -/
theorem C3_forced_share_nonlast_witness :
    "_Platform_initialize" ∈ (SplitPlanner.transformStateForSplitMode1 []
      [⟨"one", ["_Platform_initialize"], []⟩, ⟨"two", ["x"], []⟩]).1 :=
  C3_forced_share_nonlast []
    [⟨"one", ["_Platform_initialize"], []⟩, ⟨"two", ["x"], []⟩]
    0 (by decide) (by decide) "_Platform_initialize" (by decide) (by decide)

/-- C9: planning conserves each program's name set — positionally, the final
`needs ∪ shared` of each program equals its `needs` at entry (per-program
shared sets start empty): names only move from `needs` to `shared`, none is
dropped and none is added that the program did not originally need. -/
theorem C9_union_conserved (sh : List String)
    (ps : List SplitPlanner.SplitProgram)
    (h0 : ∀ p ∈ ps, p.shared = []) :
    (SplitPlanner.transformStateForSplitMode1 sh ps).2.length = ps.length
    ∧ ∀ (i : Nat) (hi : i < ps.length)
        (hi' : i < (SplitPlanner.transformStateForSplitMode1 sh ps).2.length)
        (n : String),
      (n ∈ ((SplitPlanner.transformStateForSplitMode1 sh ps).2.get
          ⟨i, hi'⟩).needs
        ∨ n ∈ ((SplitPlanner.transformStateForSplitMode1 sh ps).2.get
          ⟨i, hi'⟩).shared)
      ↔ n ∈ (ps.get ⟨i, hi⟩).needs := by
  refine ⟨SplitPlanner.transform_length sh ps, ?_⟩
  intro i hi hi' n
  rw [SplitPlanner.transform_union sh ps i hi hi' n]
  have h0i := h0 (ps.get ⟨i, hi⟩) (ps.get_mem _ _)
  rw [h0i]
  simp

/-- Witness for `C9_union_conserved`: the spec's worked planner scenario (the
program count is conserved; the hypothesis is discharged concretely). -/
theorem C9_union_conserved_witness :
    (SplitPlanner.transformStateForSplitMode1 ["d"]
      [⟨"one", ["a", "b"], []⟩, ⟨"two", ["c", "d", "b"], []⟩]).2.length
      = ([⟨"one", ["a", "b"], []⟩, ⟨"two", ["c", "d", "b"], []⟩] :
          List SplitPlanner.SplitProgram).length :=
  (C9_union_conserved ["d"]
    [⟨"one", ["a", "b"], []⟩, ⟨"two", ["c", "d", "b"], []⟩]
    (by decide)).1

namespace ScopeBuilder

theorem isDeclaredInScope_newScope {n : String} {scope : Scope}
    (params : List String) (h : isDeclaredInScope n scope = true) :
    isDeclaredInScope n (newScope scope params) = true := by
  simp [newScope, isDeclaredInScope, h]

theorem isDeclaredInScope_pushDecl {n : String} (scope : Scope) (m : String)
    (h : isDeclaredInScope n scope = true) :
    isDeclaredInScope n (pushDecl scope m) = true := by
  cases scope with
  | nil =>
    simp only [isDeclaredInScope] at h
    simp [pushDecl, isDeclaredInScope, h]
  | cons f r =>
    simp only [isDeclaredInScope, Bool.or_eq_true] at h
    rcases h with h | h
    · simp [pushDecl, isDeclaredInScope, List.mem_append]
      left; left; exact of_decide_eq_true h
    · simp [pushDecl, isDeclaredInScope, h]

theorem isDeclaredInScope_pushDecl_self (scope : Scope) (n : String) :
    isDeclaredInScope n (pushDecl scope n) = true := by
  cases scope <;> simp [pushDecl, isDeclaredInScope]

mutual

/-- Traversal only ever adds names to scope frames: a name visible in the
scope passed to `findNeeds` is visible in the scope it returns. -/
theorem findNeeds_scope_mono : ∀ (node : JsNode) (scope : Scope) (n : String),
    isDeclaredInScope n scope = true →
    isDeclaredInScope n (findNeeds node scope).2 = true
  | .identifier _, _, _ => fun h => by simpa [findNeeds] using h
  | .shorthandPropertyIdentifier _, _, _ => fun h => by simpa [findNeeds] using h
  | .propertyIdentifier _, _, _ => fun h => by simpa [findNeeds] using h
  | .numberLit, _, _ => fun h => by simpa [findNeeds] using h
  | .stringLit, _, _ => fun h => by simpa [findNeeds] using h
  | .object members, scope, n => fun h => by
    simpa [findNeeds] using findNeedsList_scope_mono members scope n h
  | .pair key value, scope, n => fun h => by
    simpa [findNeeds] using
      findNeeds_scope_mono value _ n (findNeeds_scope_mono key scope n h)
  | .functionExpr _ _, _, _ => fun h => by simpa [findNeeds] using h
  | .functionDeclaration name _ _, scope, n => fun h => by
    simpa [findNeeds] using isDeclaredInScope_pushDecl scope name h
  | .statementBlock _, _, _ => fun h => by simpa [findNeeds] using h
  | .returnStatement e, scope, n => fun h => by
    simpa [findNeeds] using findNeeds_scope_mono e scope n h
  | .expressionStatement e, scope, n => fun h => by
    simpa [findNeeds] using findNeeds_scope_mono e scope n h
  | .callExpression callee args, scope, n => fun h => by
    simpa [findNeeds] using
      findNeeds_scope_mono args _ n (findNeeds_scope_mono callee scope n h)
  | .argumentsNode args, scope, n => fun h => by
    simpa [findNeeds] using findNeedsList_scope_mono args scope n h
  | .parenthesized e, scope, n => fun h => by
    simpa [findNeeds] using findNeeds_scope_mono e scope n h
  | .variableDeclaration ds, scope, n => fun h => by
    simpa [findNeeds] using parseVariableDeclarations_scope_mono ds scope n h

theorem findNeedsList_scope_mono : ∀ (l : JsNodeList) (scope : Scope) (n : String),
    isDeclaredInScope n scope = true →
    isDeclaredInScope n (findNeedsList l scope).2 = true
  | .nil, _, _ => fun h => by simpa [findNeedsList] using h
  | .cons hd tl, scope, n => fun h => by
    simpa [findNeedsList] using
      findNeedsList_scope_mono tl _ n (findNeeds_scope_mono hd scope n h)

theorem parseVariableDeclarations_scope_mono :
    ∀ (ds : DeclaratorList) (scope : Scope) (n : String),
    isDeclaredInScope n scope = true →
    isDeclaredInScope n (parseVariableDeclarations ds scope).2 = true
  | .nil, _, _ => fun h => by simpa [parseVariableDeclarations] using h
  | .cons name init tl, scope, n => fun h => by
    simpa [parseVariableDeclarations] using
      parseVariableDeclarations_scope_mono tl _ n
        (findNeeds_scope_mono init _ n (isDeclaredInScope_pushDecl scope name h))
  | .consNoInit name tl, scope, n => fun h => by
    simpa [parseVariableDeclarations] using
      parseVariableDeclarations_scope_mono tl _ n (isDeclaredInScope_pushDecl scope name h)

end

mutual

/-- Key lemma: a name visible in the current scope chain is reported as a
need only where it occurs as a `shorthand_property_identifier` (the one case
of `findNeeds` that bypasses `wrapIdentifier`). -/
theorem findNeeds_declared_shorthand : ∀ (node : JsNode) (scope : Scope) (n : String),
    isDeclaredInScope n scope = true → n ∈ (findNeeds node scope).1 →
    shorthandOccurs n node = true
  | .identifier t, scope, n => fun h hm => by
    by_cases hd : isDeclaredInScope t scope = true
    · simp [findNeeds, wrapIdentifier, hd] at hm
    · simp [findNeeds, wrapIdentifier, hd] at hm
      subst hm; exact absurd h hd
  | .shorthandPropertyIdentifier t, _, n => fun _ hm => by
    simp [findNeeds] at hm
    simp [shorthandOccurs, hm]
  | .propertyIdentifier _, _, _ => fun _ hm => by simp [findNeeds] at hm
  | .numberLit, _, _ => fun _ hm => by simp [findNeeds] at hm
  | .stringLit, _, _ => fun _ hm => by simp [findNeeds] at hm
  | .object members, scope, n => fun h hm => by
    simp only [findNeeds] at hm
    simpa [shorthandOccurs] using findNeedsList_declared_shorthand members scope n h hm
  | .pair key value, scope, n => fun h hm => by
    simp only [findNeeds, List.mem_append] at hm
    rcases hm with hm | hm
    · simp [shorthandOccurs, findNeeds_declared_shorthand key scope n h hm]
    · simp [shorthandOccurs,
        findNeeds_declared_shorthand value _ n (findNeeds_scope_mono key scope n h) hm]
  | .functionExpr params body, scope, n => fun h hm => by
    simp only [findNeeds] at hm
    simpa [shorthandOccurs] using
      findNeeds_declared_shorthand body _ n (isDeclaredInScope_newScope params h) hm
  | .functionDeclaration name params body, scope, n => fun h hm => by
    simp only [findNeeds] at hm
    simpa [shorthandOccurs] using
      findNeeds_declared_shorthand body _ n
        (isDeclaredInScope_newScope params (isDeclaredInScope_pushDecl scope name h)) hm
  | .statementBlock stmts, scope, n => fun h hm => by
    simp only [findNeeds] at hm
    simpa [shorthandOccurs] using
      findNeedsList_declared_shorthand stmts _ n (isDeclaredInScope_newScope [] h) hm
  | .returnStatement e, scope, n => fun h hm => by
    simp only [findNeeds] at hm
    simpa [shorthandOccurs] using findNeeds_declared_shorthand e scope n h hm
  | .expressionStatement e, scope, n => fun h hm => by
    simp only [findNeeds] at hm
    simpa [shorthandOccurs] using findNeeds_declared_shorthand e scope n h hm
  | .callExpression callee args, scope, n => fun h hm => by
    simp only [findNeeds, List.mem_append] at hm
    rcases hm with hm | hm
    · simp [shorthandOccurs, findNeeds_declared_shorthand callee scope n h hm]
    · simp [shorthandOccurs,
        findNeeds_declared_shorthand args _ n (findNeeds_scope_mono callee scope n h) hm]
  | .argumentsNode args, scope, n => fun h hm => by
    simp only [findNeeds] at hm
    simpa [shorthandOccurs] using findNeedsList_declared_shorthand args scope n h hm
  | .parenthesized e, scope, n => fun h hm => by
    simp only [findNeeds] at hm
    simpa [shorthandOccurs] using findNeeds_declared_shorthand e scope n h hm
  | .variableDeclaration ds, scope, n => fun h hm => by
    simp only [findNeeds] at hm
    simpa [shorthandOccurs] using parseVariableDeclarations_declared_shorthand ds scope n h hm

theorem findNeedsList_declared_shorthand :
    ∀ (l : JsNodeList) (scope : Scope) (n : String),
    isDeclaredInScope n scope = true → n ∈ (findNeedsList l scope).1 →
    shorthandOccursList n l = true
  | .nil, _, _ => fun _ hm => by simp [findNeedsList] at hm
  | .cons hd tl, scope, n => fun h hm => by
    simp only [findNeedsList, List.mem_append] at hm
    rcases hm with hm | hm
    · simp [shorthandOccursList, findNeeds_declared_shorthand hd scope n h hm]
    · simp [shorthandOccursList,
        findNeedsList_declared_shorthand tl _ n (findNeeds_scope_mono hd scope n h) hm]

theorem parseVariableDeclarations_declared_shorthand :
    ∀ (ds : DeclaratorList) (scope : Scope) (n : String),
    isDeclaredInScope n scope = true → n ∈ (parseVariableDeclarations ds scope).1 →
    shorthandOccursDecls n ds = true
  | .nil, _, _ => fun _ hm => by simp [parseVariableDeclarations] at hm
  | .cons name init tl, scope, n => fun h hm => by
    simp only [parseVariableDeclarations, List.mem_append] at hm
    rcases hm with hm | hm
    · simp [shorthandOccursDecls,
        findNeeds_declared_shorthand init _ n (isDeclaredInScope_pushDecl scope name h) hm]
    · simp [shorthandOccursDecls,
        parseVariableDeclarations_declared_shorthand tl _ n
          (findNeeds_scope_mono init _ n (isDeclaredInScope_pushDecl scope name h)) hm]
  | .consNoInit name tl, scope, n => fun h hm => by
    simp only [parseVariableDeclarations] at hm
    simpa [shorthandOccursDecls] using
      parseVariableDeclarations_declared_shorthand tl _ n
        (isDeclaredInScope_pushDecl scope name h) hm

end

end ScopeBuilder

/-- C5, counterexample.  The claim says `needs` never contains a name bound in
an enclosing scope, "whatever syntactic position (including shorthand object
properties) it occurs in".  But `findNeeds`'s `shorthand_property_identifier`
case returns `[node.text]` without consulting the scope: for
`function f(a) { return { a }; }` the declaration's `needs` is `["a"]`,
although `a` is the enclosing function's parameter, bound at the point of
reference. -/
theorem C5_shorthand_shadowing_counterexample :
    (ScopeBuilder.parseFunctionDeclaration "f" ["a"]
        (.statementBlock (.cons (.returnStatement
          (.object (.cons (.shorthandPropertyIdentifier "a") .nil))) .nil))
        []).1.needs = ["a"]
    ∧ ScopeBuilder.isDeclaredInScope "a"
        (ScopeBuilder.newScope (ScopeBuilder.pushDecl [] "f") ["a"]) = true := by
  constructor
  · rfl
  · decide

/-- C5, amended: for every node the builder accepts and every scope, a name
visible in the scope chain at the point of reference is reported in `needs`
only where it occurs as a shorthand object property; plain identifier
references (the `wrapIdentifier` path) never produce a false positive from
shadowing. -/
theorem C5_no_false_positives_outside_shorthand
    (node : ScopeBuilder.JsNode) (scope : ScopeBuilder.Scope) (n : String)
    (hdecl : ScopeBuilder.isDeclaredInScope n scope = true)
    (hmem : n ∈ (ScopeBuilder.findNeeds node scope).1) :
    ScopeBuilder.shorthandOccurs n node = true :=
  ScopeBuilder.findNeeds_declared_shorthand node scope n hdecl hmem

/-- Witness for `C5_no_false_positives_outside_shorthand` at a concrete
input: the object `{ a }` under a scope binding `a`. -/
theorem C5_no_false_positives_outside_shorthand_witness :
    ScopeBuilder.shorthandOccurs "a"
      (.object (.cons (.shorthandPropertyIdentifier "a") .nil)) = true :=
  C5_no_false_positives_outside_shorthand
    (.object (.cons (.shorthandPropertyIdentifier "a") .nil)) [["a"]] "a"
    (by decide) (by decide)

/-- C8, counterexample.  The claim says a function's own name never appears
in its own `needs` list; but the `shorthand_property_identifier` case of
`findNeeds` records the name without a scope check, so for
`function f(x) { return { f }; }` the declaration's `needs` is `["f"]` —
the function's own name — even though `parseFunctionDeclaration` registered
`f` in the enclosing scope before traversing the body. -/
theorem C8_self_shorthand_counterexample :
    "f" ∈ (ScopeBuilder.parseFunctionDeclaration "f" ["x"]
        (.statementBlock (.cons (.returnStatement
          (.object (.cons (.shorthandPropertyIdentifier "f") .nil))) .nil))
        []).1.needs := by
  decide

/-- C8, amended: `parseFunctionDeclaration` registers the function's own
name in the enclosing scope before the body is traversed (the name is
visible in the scope under which the body's needs are computed: a fresh
function frame seeded with the parameter names whose parent holds the
name), the declaration's `needs` is exactly the body's free-reference set
under that frame, and consequently the function's own name never appears in
its own `needs` when the body's occurrences of the name are plain
identifier references — as a recursive call is; only an occurrence as a
shorthand object property (which bypasses the scope check) can put the name
in its own `needs`. -/
theorem C8_function_declaration_self_reference
    (name : String) (params : List String) (body : ScopeBuilder.JsNode)
    (scope : ScopeBuilder.Scope)
    (hsh : ScopeBuilder.shorthandOccurs name body = false) :
    ScopeBuilder.isDeclaredInScope name
      (ScopeBuilder.newScope (ScopeBuilder.pushDecl scope name) params) = true
    ∧ (ScopeBuilder.parseFunctionDeclaration name params body scope).1.needs
        = (ScopeBuilder.findNeeds body
            (ScopeBuilder.newScope (ScopeBuilder.pushDecl scope name) params)).1
    ∧ name ∉ (ScopeBuilder.parseFunctionDeclaration name params body scope).1.needs := by
  have hvis : ScopeBuilder.isDeclaredInScope name
      (ScopeBuilder.newScope (ScopeBuilder.pushDecl scope name) params) = true :=
    ScopeBuilder.isDeclaredInScope_newScope params
      (ScopeBuilder.isDeclaredInScope_pushDecl_self scope name)
  refine ⟨hvis, rfl, fun hmem => ?_⟩
  have := ScopeBuilder.findNeeds_declared_shorthand body _ name hvis hmem
  rw [hsh] at this
  exact Bool.false_ne_true this

/-- Witness for `C8_function_declaration_self_reference`:
`function f(x) { return f(x); }` — a self-recursive call — has no shorthand
occurrence of `f`, and `f` is absent from its own `needs`. -/
theorem C8_function_declaration_self_reference_witness :
    ScopeBuilder.shorthandOccurs "f"
      (.statementBlock (.cons (.returnStatement (.callExpression (.identifier "f")
        (.argumentsNode (.cons (.identifier "x") .nil)))) .nil)) = false
    ∧ "f" ∉ (ScopeBuilder.parseFunctionDeclaration "f" ["x"]
        (.statementBlock (.cons (.returnStatement (.callExpression (.identifier "f")
          (.argumentsNode (.cons (.identifier "x") .nil)))) .nil)) []).1.needs :=
  ⟨by decide,
   (C8_function_declaration_self_reference "f" ["x"]
      (.statementBlock (.cons (.returnStatement (.callExpression (.identifier "f")
        (.argumentsNode (.cons (.identifier "x") .nil)))) .nil)) [] (by decide)).2.2⟩

/-- C6: when `dependenciesToChunks` succeeds, the returned chunks are ordered
by nondecreasing original start offset, and their multiset is exactly the
fetched declaration chunks together with the extra chunks.  The embedding is
a pure function of `(deps, declarations, chunks)`, so re-running it (and the
text `depsToString` builds from it) on the same inputs yields the identical
output by construction; the substantive determinism content — that the stable
sort fixes one order — is the sortedness below. -/
theorem C6_dependenciesToChunks_sorted (deps : List String)
    (decls : List (String × DependencyGraph.ParsedDeclaration))
    (chunks out : List ChunkAssembly.Chunk)
    (h : ChunkAssembly.dependenciesToChunks deps decls chunks = .ok out) :
    out.Pairwise (fun a b => a.startIndex ≤ b.startIndex)
    ∧ ∃ fetched, ChunkAssembly.fetchChunksForDependencies deps decls = .ok fetched
        ∧ out.Perm (fetched ++ chunks) := by
  unfold ChunkAssembly.dependenciesToChunks at h
  cases hf : ChunkAssembly.fetchChunksForDependencies deps decls with
  | error e => rw [hf] at h; exact absurd h (by simp [Except.map])
  | ok fetched =>
    rw [hf] at h
    simp only [Except.map, Except.ok.injEq] at h
    subst h
    refine ⟨?_, fetched, rfl, List.mergeSort_perm _ _⟩
    have hs := @List.sorted_mergeSort _ ChunkAssembly.chunkLe
      (fun a b c hab hbc => by
        simp only [ChunkAssembly.chunkLe, decide_eq_true_eq] at hab hbc ⊢
        omega)
      (fun a b => by
        simp only [ChunkAssembly.chunkLe, Bool.or_eq_true, decide_eq_true_eq]
        omega)
      (fetched ++ chunks)
    exact hs.imp (fun hab => by
      simpa [ChunkAssembly.chunkLe, decide_eq_true_eq] using hab)

/-- Witness for `C6_dependenciesToChunks_sorted`: two declarations and one
extra chunk, deliberately out of source order. -/
theorem C6_dependenciesToChunks_sorted_witness :
    (List.Pairwise (fun a b => a.startIndex ≤ b.startIndex)
      ([⟨0, 5, [], none⟩, ⟨7, 9, [], none⟩, ⟨10, 20, [], none⟩] :
        List ChunkAssembly.Chunk))
    ∧ ∃ fetched,
        ChunkAssembly.fetchChunksForDependencies ["a", "b"]
          [("a", ⟨"a", 10, 20, []⟩), ("b", ⟨"b", 0, 5, []⟩)] = .ok fetched
        ∧ ([⟨0, 5, [], none⟩, ⟨7, 9, [], none⟩, ⟨10, 20, [], none⟩] :
            List ChunkAssembly.Chunk).Perm (fetched ++ [⟨7, 9, [], none⟩]) :=
  C6_dependenciesToChunks_sorted ["a", "b"]
    [("a", ⟨"a", 10, 20, []⟩), ("b", ⟨"b", 0, 5, []⟩)]
    [⟨7, 9, [], none⟩] [⟨0, 5, [], none⟩, ⟨7, 9, [], none⟩, ⟨10, 20, [], none⟩]
    (by
      have h1 : ChunkAssembly.fetchChunksForDependencies ["a", "b"]
          [("a", ⟨"a", 10, 20, []⟩), ("b", ⟨"b", 0, 5, []⟩)]
          = .ok [⟨10, 20, [], none⟩, ⟨0, 5, [], none⟩] := rfl
      unfold ChunkAssembly.dependenciesToChunks
      rw [h1]
      simp [Except.map, List.mergeSort, ChunkAssembly.chunkLe])

/-- C7, counterexample.  The claim says the report's `result` field is one of
`"split-programs-one-shared"`, `"single-program-reduced"` or `"error"`; but
the single-program branch of `prepareSplit` reports the `SingleEsm` literal
`"esm-dce"` (`src/types/public.d.ts`, 1st document), which is none of the
three. -/
theorem C7_result_literal_counterexample :
    (SplitReport.splitPerProgramWithSingleSharedData
        ⟨"www/examples.js", ⟨100, 30⟩⟩
        (.ok ("var x = 1", [⟨"Main"⟩]))
        ⟨"www/examples.js.dce.mjs", ⟨50, 20⟩⟩ [] ⟨"shared", ⟨1, 1⟩⟩).resultField
      = "esm-dce"
    ∧ "esm-dce" ∉ (["split-programs-one-shared", "single-program-reduced",
        "error"] : List String) := by
  constructor
  · rfl
  · decide

/-- C7, amended: the report's `result` field is one of
`"split-programs-one-shared"`, `"esm-dce"` or `"error"`, and every non-error
variant carries the input file with its sizes, the program-name list and the
output file description(s). -/
theorem C7_report_shape (input : SplitReport.FileWithSizes)
    (convertOutcome : Except String (String × List SplitReport.ProgramNode))
    (dceOutput : SplitReport.FileWithSizes)
    (programFiles : List SplitReport.FileWithSizes)
    (sharedFile : SplitReport.FileWithSizes) :
    (SplitReport.splitPerProgramWithSingleSharedData input convertOutcome
        dceOutput programFiles sharedFile).resultField
      ∈ (["split-programs-one-shared", "esm-dce", "error"] : List String)
    ∧ ((SplitReport.splitPerProgramWithSingleSharedData input convertOutcome
          dceOutput programFiles sharedFile).resultField ≠ "error" →
        (∃ programs output,
            SplitReport.splitPerProgramWithSingleSharedData input convertOutcome
              dceOutput programFiles sharedFile
            = .esmDce input programs output)
        ∨ (∃ programs outputPrograms outputShared,
            SplitReport.splitPerProgramWithSingleSharedData input convertOutcome
              dceOutput programFiles sharedFile
            = .manyProgramsOneShared input programs outputPrograms outputShared)) := by
  unfold SplitReport.splitPerProgramWithSingleSharedData SplitReport.prepareSplit
  rcases convertOutcome with msg | ⟨esm, nodes⟩
  · simp [SplitReport.SplitResult.resultField]
  · by_cases h1 : nodes.length < 1
    · simp [h1, SplitReport.SplitResult.resultField]
    · by_cases h2 : nodes.length == 1
      · simp [h1, h2, SplitReport.SplitResult.resultField]
      · simp [h1, h2, SplitReport.SplitResult.resultField]

/-- Witness for `C7_report_shape` at a concrete two-program input (the
`"split-programs-one-shared"` variant). -/
theorem C7_report_shape_witness :
    (SplitReport.splitPerProgramWithSingleSharedData
        ⟨"www/examples.js", ⟨100, 30⟩⟩
        (.ok ("var x = 1", [⟨"One"⟩, ⟨"Two"⟩]))
        ⟨"dce", ⟨1, 1⟩⟩ [⟨"One.mjs", ⟨2, 2⟩⟩, ⟨"Two.mjs", ⟨3, 3⟩⟩]
        ⟨"shared.mjs", ⟨4, 4⟩⟩).resultField
      ∈ (["split-programs-one-shared", "esm-dce", "error"] : List String)
    ∧ ((SplitReport.splitPerProgramWithSingleSharedData
          ⟨"www/examples.js", ⟨100, 30⟩⟩
          (.ok ("var x = 1", [⟨"One"⟩, ⟨"Two"⟩]))
          ⟨"dce", ⟨1, 1⟩⟩ [⟨"One.mjs", ⟨2, 2⟩⟩, ⟨"Two.mjs", ⟨3, 3⟩⟩]
          ⟨"shared.mjs", ⟨4, 4⟩⟩).resultField ≠ "error" →
        (∃ programs output,
            SplitReport.splitPerProgramWithSingleSharedData
              ⟨"www/examples.js", ⟨100, 30⟩⟩
              (.ok ("var x = 1", [⟨"One"⟩, ⟨"Two"⟩]))
              ⟨"dce", ⟨1, 1⟩⟩ [⟨"One.mjs", ⟨2, 2⟩⟩, ⟨"Two.mjs", ⟨3, 3⟩⟩]
              ⟨"shared.mjs", ⟨4, 4⟩⟩
            = .esmDce ⟨"www/examples.js", ⟨100, 30⟩⟩ programs output)
        ∨ (∃ programs outputPrograms outputShared,
            SplitReport.splitPerProgramWithSingleSharedData
              ⟨"www/examples.js", ⟨100, 30⟩⟩
              (.ok ("var x = 1", [⟨"One"⟩, ⟨"Two"⟩]))
              ⟨"dce", ⟨1, 1⟩⟩ [⟨"One.mjs", ⟨2, 2⟩⟩, ⟨"Two.mjs", ⟨3, 3⟩⟩]
              ⟨"shared.mjs", ⟨4, 4⟩⟩
            = .manyProgramsOneShared ⟨"www/examples.js", ⟨100, 30⟩⟩ programs
                outputPrograms outputShared)) :=
  C7_report_shape ⟨"www/examples.js", ⟨100, 30⟩⟩
    (.ok ("var x = 1", [⟨"One"⟩, ⟨"Two"⟩]))
    ⟨"dce", ⟨1, 1⟩⟩ [⟨"One.mjs", ⟨2, 2⟩⟩, ⟨"Two.mjs", ⟨3, 3⟩⟩] ⟨"shared.mjs", ⟨4, 4⟩⟩
